import Mathlib

/-!
Verification of the TIC-TAC-TOE game engine (TypeScript sources under `src/`).

This file gives a shallow embedding of the engine's core logic:

* `src/utils/gameLogic.ts`   — `checkWinner`, `checkDraw`
* `src/utils/circleLogic.ts` — placement/capture rules, inventories, draw test,
                               move generation and simulation for the circles variant
* `src/utils/bot.ts`         — the classic-board bot cascade and its win scanner
* `src/utils/circlesHardBot.ts` — the memoized alpha-beta search of the hard bot
* `src/components/Game.tsx`  — the decay-ruleset move transition and the deferred
                               removal of expired placements

Pure functions of the source become Lean functions; the JavaScript `throw`s of
`placeCircle` / `simulateCircleMove` become `Except`; `Math.random` draws become
an explicit `r : Nat` parameter (the drawn index is `r % length`, covering every
value the source can draw); JS `Infinity` sentinels of the search become the
integer sentinels `negInf`/`posInf`, which compare identically to `±Infinity`
against every finite score the search produces.  JS array indexing out of range
yields `undefined`, embedded as the default value of `List.getD`.
-/

namespace TTT

/-- Player, `src/types/game.ts` (`type Player = "X" | "O"`). -/
inductive Player where
  | X : Player
  | O : Player
deriving DecidableEq, Repr

/-- CellValue, `src/types/game.ts` (`type CellValue = Player | null`); `none` is `null`. -/
abbrev CellValue := Option Player

/-- A board is the flat list of cells, row-major, as in the source. -/
abbrev Board := List CellValue

/-- The opposite player (`prev.currentPlayer === "X" ? "O" : "X"` in the source). -/
def otherPlayer : Player → Player
  | Player.X => Player.O
  | Player.O => Player.X

/-! ## gameLogic.ts -/

/-- One row of cell indices, `checkWinner`'s row loop: `indices.push(row * gridSize + col)`. -/
def rowLine (g r : Nat) : List Nat := (List.range g).map fun c => r * g + c

/-- One column of cell indices, `checkWinner`'s column loop. -/
def colLine (g c : Nat) : List Nat := (List.range g).map fun r => r * g + c

/-- Down-right diagonal starting at `(sr, 0)`: the source walks `row++, col++`
from `(startRow, 0)` while both stay below `gridSize`, which is `g - sr` steps. -/
def diagDR0 (g sr : Nat) : List Nat := (List.range (g - sr)).map fun k => (sr + k) * g + k

/-- Down-right diagonal starting at `(0, sc)` (source loop over `startCol`): `g - sc` steps. -/
def diagDR1 (g sc : Nat) : List Nat := (List.range (g - sc)).map fun k => k * g + (sc + k)

/-- Down-left diagonal starting at `(sr, g-1)`: the source walks `row++, col--`
from `(startRow, gridSize-1)` while `row < gridSize && col >= 0`, which is `g - sr` steps. -/
def diagDL0 (g sr : Nat) : List Nat := (List.range (g - sr)).map fun k => (sr + k) * g + (g - 1 - k)

/-- Down-left diagonal starting at `(0, sc)` for `sc ≤ g - 2`: `sc + 1` steps. -/
def diagDL1 (g sc : Nat) : List Nat := (List.range (sc + 1)).map fun k => k * g + (sc - k)

/-- All lines scanned by `checkWinner`, in the source's scan order: rows by
ascending row, columns by ascending column, down-right diagonals first from
column 0 by ascending start row then from row 0 by ascending start column
(`startCol = 1 .. gridSize-1`), down-left diagonals first from the last column
by ascending start row then from row 0 by descending start column
(`startCol = gridSize-2 .. 0`). -/
def allLines (g : Nat) : List (List Nat) :=
  ((List.range g).map (rowLine g)) ++
  ((List.range g).map (colLine g)) ++
  ((List.range g).map (diagDR0 g)) ++
  ((List.range (g - 1)).map fun j => diagDR1 g (j + 1)) ++
  ((List.range g).map (diagDL0 g)) ++
  ((List.range (g - 1)).map fun j => diagDL1 g (g - 2 - j))

/-- The `winLength`-cell window of a line starting at offset `i`
(`indices.slice(i, i + winLength)` in the source). -/
def segmentAt (line : List Nat) (w i : Nat) : List Nat := (line.drop i).take w

/-- The uniform non-null owner of a segment, if any: the source reads
`firstCell = board[segment[0]]` and requires `firstCell` truthy and
`segment.every(idx => board[idx] === firstCell)`. -/
def segOwner (board : Board) (seg : List Nat) : Option Player :=
  match seg.head? with
  | none => none
  | some i0 =>
    match board.getD i0 none with
    | none => none
    | some p => if seg.all fun idx => board.getD idx none = some p then some p else none

/-- The inner `checkLine` helper of `checkWinner`: first winning window of a line. -/
def checkLine (board : Board) (w : Nat) (line : List Nat) : Option (Player × List Nat) :=
  if line.length < w then none
  else
    (List.range (line.length - w + 1)).findSome? fun i =>
      match segOwner board (segmentAt line w i) with
      | some p => some (p, segmentAt line w i)
      | none => none

/-- `checkWinner` of `src/utils/gameLogic.ts`: scans rows, columns, down-right
diagonals and down-left diagonals in the source's order and returns the first
winning line together with its owner. -/
def checkWinner (board : Board) (g w : Nat) : Option (Player × List Nat) :=
  (allLines g).findSome? (checkLine board w)

/-- `checkDraw` of `src/utils/gameLogic.ts`: `board.every(cell => cell !== null)`. -/
def checkDraw (board : Board) : Bool := board.all fun c => c.isSome

/-! ## circleLogic.ts -/

/-- A placed circle, `src/types/game.ts`. The source's `id` is an opaque string
(a UUID for real placements); only its identity matters, so it is a `Nat` here. -/
structure Circle where
  id : Nat
  owner : Player
  size : Nat
deriving DecidableEq, Repr

/-- Cell stacks: one stack of circles per board cell, last element topmost. -/
abbrev CellStacks := List (List Circle)

/-- Per-player remaining circle counts, `src/types/game.ts` (`CircleInventory`). -/
structure CircleInventory where
  small : Nat
  medium : Nat
  large : Nat
deriving DecidableEq, Repr

/-- `initializeCircleInventory` of `circleLogic.ts`: two circles of each size. -/
def initCircleInventory : CircleInventory := ⟨2, 2, 2⟩

/-- The three inventory slots (`keyof CircleInventory` in the source). -/
inductive SizeKey where
  | small : SizeKey
  | medium : SizeKey
  | large : SizeKey
deriving DecidableEq, Repr

/-- `getSizeKey`: size 1 ↦ small, 2 ↦ medium, anything else ↦ large. -/
def getSizeKey (size : Nat) : SizeKey :=
  if size = 1 then SizeKey.small else if size = 2 then SizeKey.medium else SizeKey.large

/-- Read an inventory slot. -/
def CircleInventory.get (inv : CircleInventory) : SizeKey → Nat
  | SizeKey.small => inv.small
  | SizeKey.medium => inv.medium
  | SizeKey.large => inv.large

/-- Write an inventory slot. -/
def CircleInventory.set (inv : CircleInventory) : SizeKey → Nat → CircleInventory
  | SizeKey.small, n => { inv with small := n }
  | SizeKey.medium, n => { inv with medium := n }
  | SizeKey.large, n => { inv with large := n }

/-- `isValidCirclePlacement`: the cell is empty, or the new size strictly exceeds
the top circle's size. -/
def isValidCirclePlacement (cellStacks : CellStacks) (cellIndex size : Nat) : Bool :=
  match (cellStacks.getD cellIndex []).getLast? with
  | none => true
  | some top => decide (top.size < size)

/-- The two errors `placeCircle` can throw (section 7 of the spec names them
`InvalidPlacement` and `InventoryExhausted`). -/
inductive PlaceError where
  | invalidPlacement : PlaceError
  | inventoryExhausted : PlaceError
deriving DecidableEq, Repr

/-- Result of a successful `placeCircle`. -/
structure PlaceResult where
  newStacks : CellStacks
  newInventory : CircleInventory
  capturedCircle : Option Circle
deriving Repr

/-- `placeCircle` of `circleLogic.ts`.  Validity is checked first, then the
inventory; on success the target stack's top (if any) is popped and the new
circle pushed, and the mover's slot for the size is decremented.  The source
generates the new circle's id with `crypto.randomUUID()`; the embedding takes
the fresh id as the argument `newId`.  The source throws before mutating
anything (it clones the stacks and inventory), so an error leaves the caller's
state untouched — in this pure embedding an error simply produces no result. -/
def placeCircle (cellStacks : CellStacks) (inventory : CircleInventory)
    (cellIndex size : Nat) (player : Player) (newId : Nat) :
    Except PlaceError PlaceResult :=
  if ¬ isValidCirclePlacement cellStacks cellIndex size then
    Except.error PlaceError.invalidPlacement
  else
    let sizeKey := getSizeKey size
    if inventory.get sizeKey ≤ 0 then
      Except.error PlaceError.inventoryExhausted
    else
      let stack := cellStacks.getD cellIndex []
      let captured := stack.getLast?
      let newCircle : Circle := ⟨newId, player, size⟩
      let newStacks := cellStacks.set cellIndex (stack.dropLast ++ [newCircle])
      let newInventory := inventory.set sizeKey (inventory.get sizeKey - 1)
      Except.ok ⟨newStacks, newInventory, captured⟩

/-- `getTopOwnerBoard`: project each stack to its top circle's owner. -/
def getTopOwnerBoard (cellStacks : CellStacks) : Board :=
  cellStacks.map fun stack => (stack.getLast?).map Circle.owner

/-- `invForSize` helper of `circleLogic.ts`. -/
def invForSize (inv : CircleInventory) (size : Nat) : Nat :=
  if size = 1 then inv.small else if size = 2 then inv.medium else inv.large

/-- `decInv` helper of `circleLogic.ts`. -/
def decInv (inv : CircleInventory) (size : Nat) : CircleInventory :=
  if size = 1 then { inv with small := inv.small - 1 }
  else if size = 2 then { inv with medium := inv.medium - 1 }
  else { inv with large := inv.large - 1 }

/-- `hasValidMoves`: some size still in stock can be placed on some cell. -/
def hasValidMoves (cellStacks : CellStacks) (inventory : CircleInventory) : Bool :=
  ([1, 2, 3] : List Nat).any fun size =>
    if inventory.get (getSizeKey size) ≤ 0 then false
    else (List.range cellStacks.length).any fun i => isValidCirclePlacement cellStacks i size

/-- `checkCirclesDraw`: neither player has a valid move. -/
def checkCirclesDraw (cellStacks : CellStacks) (inventoryX inventoryO : CircleInventory) : Bool :=
  ¬ hasValidMoves cellStacks inventoryX ∧ ¬ hasValidMoves cellStacks inventoryO

/-- `getNextAvailableSize`: smallest size still in stock, if any. -/
def getNextAvailableSize (inventory : CircleInventory) : Option Nat :=
  if inventory.small > 0 then some 1
  else if inventory.medium > 0 then some 2
  else if inventory.large > 0 then some 3
  else none

/-- `CircleMove` of `circleLogic.ts`. -/
structure CircleMove where
  cellIndex : Nat
  size : Nat
deriving DecidableEq, Repr

/-- `getValidCircleMoves`: all legal moves, sizes 1, 2, 3 in that order, cells
by ascending index within a size. -/
def getValidCircleMoves (cellStacks : CellStacks) (inventory : CircleInventory) :
    List CircleMove :=
  ([1, 2, 3] : List Nat).flatMap fun size =>
    if invForSize inventory size ≤ 0 then []
    else
      (List.range cellStacks.length).filterMap fun cellIndex =>
        if isValidCirclePlacement cellStacks cellIndex size then
          some ⟨cellIndex, size⟩
        else none

/-- The stack transform shared by `placeCircle` and `simulateCircleMove`:
pop the target cell's top (if any) and push the new circle. -/
def simStacks (cellStacks : CellStacks) (move : CircleMove) (player : Player) : CellStacks :=
  let stack := cellStacks.getD move.cellIndex []
  cellStacks.set move.cellIndex (stack.dropLast ++ [⟨0, player, move.size⟩])

/-- The size captured by a move: top circle's size, or 0 on an empty cell. -/
def simCapturedSize (cellStacks : CellStacks) (move : CircleMove) : Nat :=
  match (cellStacks.getD move.cellIndex []).getLast? with
  | none => 0
  | some top => top.size

/-- `simulateCircleMove` of `circleLogic.ts`: checks the inventory first, then
validity (the opposite order of `placeCircle`), and returns the new stacks, the
decremented inventory and the captured size.  The source gives the simulated
circle a deterministic id string; ids are irrelevant to the search (its memo
key ignores them), so the embedding uses id 0. -/
def simulateCircleMove (cellStacks : CellStacks) (inventory : CircleInventory)
    (move : CircleMove) (player : Player) :
    Except PlaceError (CellStacks × CircleInventory × Nat) :=
  if invForSize inventory move.size ≤ 0 then
    Except.error PlaceError.inventoryExhausted
  else if ¬ isValidCirclePlacement cellStacks move.cellIndex move.size then
    Except.error PlaceError.invalidPlacement
  else
    Except.ok (simStacks cellStacks move player, decInv inventory move.size,
      simCapturedSize cellStacks move)

/-! ## bot.ts -/

/-- Bot difficulty, `src/types/game.ts`. -/
inductive BotDifficulty where
  | easy : BotDifficulty
  | normal : BotDifficulty
  | hard : BotDifficulty
deriving DecidableEq, Repr

/-- `checkWinForPlayer` of `src/utils/bot.ts`: four scans (rows, columns,
down-right diagonals, down-left diagonals), each counting matching cells in a
`winLength` window and comparing the count to `winLength`.  The source's loop
bounds `col <= gridSize - winLength` etc. run `gridSize - winLength + 1` times
when `winLength ≤ gridSize` and zero times otherwise, which is `g + 1 - w` in
truncated natural subtraction. -/
def checkWinForPlayer (board : Board) (player : Player) (g w : Nat) : Bool :=
  ((List.range g).any fun row =>
    (List.range (g + 1 - w)).any fun col =>
      ((List.range w).countP fun k => board.getD (row * g + col + k) none = some player) = w) ||
  ((List.range g).any fun col =>
    (List.range (g + 1 - w)).any fun row =>
      ((List.range w).countP fun k => board.getD ((row + k) * g + col) none = some player) = w) ||
  ((List.range (g + 1 - w)).any fun row =>
    (List.range (g + 1 - w)).any fun col =>
      ((List.range w).countP fun k =>
        board.getD ((row + k) * g + (col + k)) none = some player) = w) ||
  ((List.range (g + 1 - w)).any fun row =>
    (List.range (g + 1 - w)).any fun j =>
      ((List.range w).countP fun k =>
        board.getD ((row + k) * g + (w - 1 + j - k)) none = some player) = w)

/-- `findWinningMove` of `bot.ts`: first empty cell whose occupation by `player`
wins, by ascending cell index. -/
def findWinningMove (board : Board) (player : Player) (g w : Nat) : Option Nat :=
  (List.range board.length).findSome? fun i =>
    if board.getD i none = none then
      if checkWinForPlayer (board.set i (some player)) player g w then some i else none
    else none

/-- Pick `list[r % list.length]`, modelling `list[Math.floor(Math.random() * list.length)]`
for a nonempty list: as `r` ranges over `Nat`, `r % length` ranges over exactly
the indices the source can draw. -/
def randPick (list : List Nat) (r : Nat) : Nat := list.getD (r % list.length) 0

/-- The empty cells of a board (`emptyCells` in `getBotMove`). -/
def emptyCellsOf (board : Board) : List Nat :=
  (List.range board.length).filter fun i => board.getD i none = none

/-- Step 3 of `getBotMove` (hard, 3×3 only): the first free edge when the bot
holds the center and the human holds an opposite-corner pair, else nothing. -/
def antiForkMove (board : Board) (difficulty : BotDifficulty) (g : Nat) : Option Nat :=
  if difficulty = BotDifficulty.hard ∧ g = 3 then
    if board.getD 4 none = some Player.O ∧
        ((board.getD 0 none = some Player.X ∧ board.getD 8 none = some Player.X) ∨
         (board.getD 2 none = some Player.X ∧ board.getD 6 none = some Player.X)) then
      ([1, 3, 5, 7] : List Nat).find? fun i => board.getD i none = none
    else none
  else none

/-- The free corners considered by step 5 of `getBotMove` (3×3 only). -/
def freeCorners (board : Board) (g : Nat) : List Nat :=
  if g = 3 then ([0, 2, 6, 8] : List Nat).filter fun i => board.getD i none = none else []

/-- `getBotMove` of `src/utils/bot.ts`.  The random draws of the easy path, the
corner step and the fallback step are modelled by the parameter `r` (each
execution path draws at most once). -/
def getBotMove (board : Board) (difficulty : BotDifficulty) (g w : Nat) (r : Nat) :
    Option Nat :=
  let emptyCells := emptyCellsOf board
  if emptyCells.isEmpty then none
  else if difficulty = BotDifficulty.easy then some (randPick emptyCells r)
  else
    match findWinningMove board Player.O g w with
    | some i => some i
    | none =>
      match findWinningMove board Player.X g w with
      | some i => some i
      | none =>
        match antiForkMove board difficulty g with
        | some e => some e
        | none =>
          if g = 3 ∧ board.getD 4 none = none then some 4
          else
            let corners := freeCorners board g
            if ¬ corners.isEmpty then some (randPick corners r)
            else some (randPick emptyCells r)

/-! ## circlesHardBot.ts -/

/-- Memo key of the hard bot's transposition table.  The source serializes
`(currentPlayer, invX, invO, per-cell owner/size sequences)` into a string
(`stateKey`); for the single-digit counts and sizes of this game that string
determines and is determined by exactly the data kept here, so the embedding
keys the table structurally. -/
structure MemoKey where
  player : Player
  invX : CircleInventory
  invO : CircleInventory
  cells : List (List (Player × Nat))
deriving DecidableEq, Repr

/-- The stack component of `stateKey`: owners and sizes, ids dropped. -/
def stacksKeyOf (cellStacks : CellStacks) : List (List (Player × Nat)) :=
  cellStacks.map fun stack => stack.map fun c => (c.owner, c.size)

/-- Build the memo key of a search node. -/
def keyOf (player : Player) (invX invO : CircleInventory) (cellStacks : CellStacks) : MemoKey :=
  ⟨player, invX, invO, stacksKeyOf cellStacks⟩

/-- The transposition table, an association list with most recent entry first
(the search never stores the same key twice, so this matches a JS `Map`). -/
abbrev Memo := List (MemoKey × Int)

/-- Lookup in the memo. -/
def memoFind (memo : Memo) (k : MemoKey) : Option Int :=
  memo.findSome? fun e => if e.1 = k then some e.2 else none

/-- Store into the memo. -/
def memoInsert (memo : Memo) (k : MemoKey) (v : Int) : Memo := (k, v) :: memo

/-- `terminalScore` of `circlesHardBot.ts` with `maximizingPlayer = "O"`:
a win for O at ply `p` scores `1000 - p`, a win for X scores `-1000 + p`. -/
def terminalScore (winner : Player) (plyFromRoot : Nat) : Int :=
  if winner = Player.O then 1000 - (plyFromRoot : Int) else -1000 + (plyFromRoot : Int)

/-- `evaluatePositionHeuristic` of `circlesHardBot.ts` (used only when a depth
limit is set): inventory difference ×10, board-control difference ×15, and ±5
for the center cell, all from O's point of view. -/
def evaluatePositionHeuristic (cellStacks : CellStacks) (invX invO : CircleInventory)
    (g : Nat) : Int :=
  let botTotal : Int := (invO.small + invO.medium + invO.large : Nat)
  let oppTotal : Int := (invX.small + invX.medium + invX.large : Nat)
  let board := getTopOwnerBoard cellStacks
  let botCells : Int := (board.countP fun c => c = some Player.O : Nat)
  let oppCells : Int := (board.countP fun c => c = some Player.X : Nat)
  let centerIndex := g * g / 2
  let centerBonus : Int :=
    match board.getD centerIndex none with
    | some Player.O => 5
    | some Player.X => -5
    | none => 0
  (botTotal - oppTotal) * 10 + (botCells - oppCells) * 15 + centerBonus

/-- The `+Infinity` sentinel of the search.  Every score the search produces has
absolute value at most 1000, so comparisons against this sentinel decide exactly
as they would against JS `Infinity`. -/
def posInf : Int := 1000000000

/-- The `-Infinity` sentinel of the search. -/
def negInf : Int := -1000000000

/-- One entry of the hard bot's `ordered` move list: the move together with its
simulated result (`{ m, sim, cap }` in the source). -/
structure SimItem where
  move : CircleMove
  newStacks : CellStacks
  newInventory : CircleInventory
  capturedSize : Nat
deriving Repr

/-- Build the `SimItem` of one move (the source calls `simulateCircleMove`,
which cannot fail on a move produced by `getValidCircleMoves`). -/
def simItem (cellStacks : CellStacks) (inventory : CircleInventory) (move : CircleMove)
    (player : Player) : SimItem :=
  ⟨move, simStacks cellStacks move player, decInv inventory move.size,
    simCapturedSize cellStacks move⟩

/-- Stable insertion into a list sorted by descending `capturedSize`: the new
item goes in front of the first entry whose capture is `≤` its own. -/
def insertByCapDesc (x : SimItem) : List SimItem → List SimItem
  | [] => [x]
  | y :: ys =>
    if y.capturedSize ≤ x.capturedSize then x :: y :: ys else y :: insertByCapDesc x ys

/-- Stable sort by descending `capturedSize`, modelling the source's
`.sort((a, b) => b.cap - a.cap)` (JS array sort is stable, and a stable sort by
this comparator has exactly one possible output, computed here by stable
insertion). -/
def sortByCapDesc (items : List SimItem) : List SimItem :=
  items.foldr insertByCapDesc []

/-- Whether the depth cutoff fires: `node.ply >= resolvedMaxDepth`, where the
resolved depth is `Infinity` when no limit is given. -/
def depthReached (maxDepth : Option Nat) (ply : Nat) : Bool :=
  match maxDepth with
  | none => false
  | some d => decide (d ≤ ply)

/-- The alpha-beta loop over a node's ordered children.  `f` evaluates one
child under the current window and memo; `isMax` tells whether the node
maximizes.  Mirrors the source's `for (const item of ordered)` with its
`break` on `beta <= alpha`. -/
def abLoop (f : SimItem → Int → Int → Memo → Int × Memo) (isMax : Bool) :
    List SimItem → Int → Int → Int → Memo → Int × Memo
  | [], best, _, _, memo => (best, memo)
  | item :: rest, best, alpha, beta, memo =>
    let r := f item alpha beta memo
    let score := r.1
    if isMax then
      let best1 := if best < score then score else best
      let alpha1 := if alpha < best1 then best1 else alpha
      if beta ≤ alpha1 then (best1, r.2)
      else abLoop f isMax rest best1 alpha1 beta r.2
    else
      let best1 := if score < best then score else best
      let beta1 := if best1 < beta then best1 else beta
      if beta1 ≤ alpha then (best1, r.2)
      else abLoop f isMax rest best1 alpha beta1 r.2

/-- The recursive `minimax` of `computeBestCirclesMoveHard`.  `fuel` only
bounds the recursion depth: every reachable call site keeps
`invTotal invX + invTotal invO < fuel`, and each ply consumes one inventory
piece, so the `fuel = 0` branch is never reached from such a call.  Order of
business as in the source: memo lookup, winner check, depth cutoff, move
generation (empty ⇒ draw 0), then the alpha-beta loop over children ordered by
descending captured size, and finally the memo store of `best`. -/
def minimax (fuel : Nat) (g w : Nat) (maxDepth : Option Nat) (cellStacks : CellStacks)
    (invX invO : CircleInventory) (player : Player) (ply : Nat) (alpha beta : Int)
    (memo : Memo) : Int × Memo :=
  match fuel with
  | 0 => (0, memo)
  | fuel + 1 =>
    let key := keyOf player invX invO cellStacks
    match memoFind memo key with
    | some v => (v, memo)
    | none =>
      let board := getTopOwnerBoard cellStacks
      match checkWinner board g w with
      | some pr =>
        let score := terminalScore pr.1 ply
        (score, memoInsert memo key score)
      | none =>
        if depthReached maxDepth ply then
          let score := evaluatePositionHeuristic cellStacks invX invO g
          (score, memoInsert memo key score)
        else
          let inv := if player = Player.X then invX else invO
          let moves := getValidCircleMoves cellStacks inv
          if moves.isEmpty then (0, memoInsert memo key 0)
          else
            let ordered := sortByCapDesc (moves.map fun m => simItem cellStacks inv m player)
            let isMax := player = Player.O
            let evalChild := fun (item : SimItem) (alpha beta : Int) (memo : Memo) =>
              minimax fuel g w maxDepth item.newStacks
                (if player = Player.X then item.newInventory else invX)
                (if player = Player.X then invO else item.newInventory)
                (otherPlayer player) (ply + 1) alpha beta memo
            let init : Int := if isMax then negInf else posInf
            let r := abLoop evalChild isMax ordered init alpha beta memo
            (r.1, memoInsert r.2 key r.1)

/-- Total number of circles in an inventory. -/
def invTotal (inv : CircleInventory) : Nat := inv.small + inv.medium + inv.large

/-- The root loop of `computeBestCirclesMoveHard`: evaluate each legal move at
ply 1 with a full window and the shared memo, keeping the first strictly
improving move. -/
def rootLoop (fuel : Nat) (g w : Nat) (maxDepth : Option Nat) (cellStacks : CellStacks)
    (invX invO : CircleInventory) (currentPlayer : Player) :
    List CircleMove → CircleMove → Int → Memo → CircleMove × Int × Memo
  | [], bestMove, bestScore, memo => (bestMove, bestScore, memo)
  | m :: rest, bestMove, bestScore, memo =>
    let rootInv := if currentPlayer = Player.X then invX else invO
    let item := simItem cellStacks rootInv m currentPlayer
    let r := minimax fuel g w maxDepth item.newStacks
      (if currentPlayer = Player.X then item.newInventory else invX)
      (if currentPlayer = Player.X then invO else item.newInventory)
      (otherPlayer currentPlayer) 1 negInf posInf memo
    if bestScore < r.1 then
      rootLoop fuel g w maxDepth cellStacks invX invO currentPlayer rest m r.1 r.2
    else
      rootLoop fuel g w maxDepth cellStacks invX invO currentPlayer rest bestMove bestScore r.2

/-- `computeBestCirclesMoveHard` of `src/utils/circlesHardBot.ts`: null when the
mover has no legal move, else the first root move whose search score strictly
exceeds every earlier root move's score. -/
def computeBestCirclesMoveHard (cellStacks : CellStacks) (invX invO : CircleInventory)
    (currentPlayer : Player) (g w : Nat) (maxDepth : Option Nat) : Option CircleMove :=
  let rootInv := if currentPlayer = Player.X then invX else invO
  let rootMoves := getValidCircleMoves cellStacks rootInv
  match rootMoves with
  | [] => none
  | m0 :: _ =>
    let fuel := invTotal invX + invTotal invO
    some (rootLoop fuel g w maxDepth cellStacks invX invO currentPlayer
      rootMoves m0 negInf []).1

/-! ## Game.tsx — decay ruleset -/

/-- A decay-ruleset placement, `src/types/game.ts`. -/
structure Placement where
  index : Nat
  value : Player
  placedTurn : Nat
deriving DecidableEq, Repr

/-- The slice of `GameState` the decay transition touches. -/
structure DecayState where
  board : Board
  currentPlayer : Player
  turnNumber : Nat
  winner : Option Player
  winningLine : Option (List Nat)
  isDraw : Bool
  placements : List Placement
  expiringIndices : List Nat
deriving Repr

/-- `deriveBoardFromPlacements` of `Game.tsx`: start from an all-null board of
`gridSize²` cells and write each placement's value at its index. -/
def deriveBoardFromPlacements (placements : List Placement) (g : Nat) : Board :=
  placements.foldl (fun b p => b.set p.index (some p.value)) (List.replicate (g * g) none)

/-- The decay branch of `executeMove` in `Game.tsx`: append the new placement
(with `placedTurn` = the turn number before the increment), collect into
`expiringIndices` the indices of placements aged at least `decayTurns`, derive
the board from all placements — the expiring ones included — and evaluate
winner, then draw, on that board; otherwise pass the turn. -/
def executeDecayMove (g w decayTurns : Nat) (prev : DecayState) (index : Nat) : DecayState :=
  let newTurnNumber := prev.turnNumber + 1
  let newPlacement : Placement := ⟨index, prev.currentPlayer, prev.turnNumber⟩
  let newPlacements := prev.placements ++ [newPlacement]
  let expiring := (newPlacements.filter fun p =>
    decayTurns ≤ prev.turnNumber - p.placedTurn).map Placement.index
  let newBoard := deriveBoardFromPlacements newPlacements g
  match checkWinner newBoard g w with
  | some pr =>
    { prev with
        board := newBoard, placements := newPlacements, expiringIndices := expiring,
        winner := some pr.1, winningLine := some pr.2, turnNumber := newTurnNumber }
  | none =>
    if checkDraw newBoard then
      { prev with
          board := newBoard, placements := newPlacements, expiringIndices := expiring,
          isDraw := true, turnNumber := newTurnNumber }
    else
      { prev with
          board := newBoard, placements := newPlacements, expiringIndices := expiring,
          currentPlayer := otherPlayer prev.currentPlayer, turnNumber := newTurnNumber }

/-- The deferred removal scheduled by the decay branch (the `setTimeout`
callback): drop every placement whose index is in the captured `expiring`
batch, re-derive the board, and clear `expiringIndices`. -/
def decayRemovalStep (g : Nat) (expiring : List Nat) (current : DecayState) : DecayState :=
  let filtered := current.placements.filter fun p => decide (p.index ∉ expiring)
  { current with
      placements := filtered,
      board := deriveBoardFromPlacements filtered g,
      expiringIndices := [] }

/-! ## Helper lemmas about circle placement -/

/-- States of the circles board reachable from the all-empty start through
successful `placeCircle` or `simulateCircleMove` calls, with arbitrary
inventories, movers and fresh ids at each step. -/
inductive ReachableStacks : CellStacks → Prop where
  | init (n : Nat) : ReachableStacks (List.replicate n [])
  | place (s : CellStacks) (inv : CircleInventory) (i z : Nat) (pl : Player) (newId : Nat)
      (r : PlaceResult) (hs : ReachableStacks s)
      (h : placeCircle s inv i z pl newId = Except.ok r) : ReachableStacks r.newStacks
  | sim (s : CellStacks) (inv : CircleInventory) (m : CircleMove) (pl : Player)
      (res : CellStacks × CircleInventory × Nat) (hs : ReachableStacks s)
      (h : simulateCircleMove s inv m pl = Except.ok res) : ReachableStacks res.1

/-- A segment together with its uniform owner, if it has one. -/
def segWin (board : Board) (seg : List Nat) : Option (Player × List Nat) :=
  match segOwner board seg with
  | some p => some (p, seg)
  | none => none

/-- All `w`-cell windows of a line, by ascending offset (none if the line is
shorter than `w`). -/
def lineSegments (w : Nat) (line : List Nat) : List (List Nat) :=
  if line.length < w then [] else (List.range (line.length - w + 1)).map (segmentAt line w)

/-- Every window `checkWinner` examines, in its exact scan order. -/
def allSegments (g w : Nat) : List (List Nat) :=
  (allLines g).flatMap (lineSegments w)

/-- A horizontal run of `w` cells owned by `p` in row `r` starting at column `j`. -/
def rowRun (board : Board) (g w : Nat) (p : Player) : Prop :=
  ∃ r, r < g ∧ ∃ j, j + w ≤ g ∧ ∀ k < w, board.getD (r * g + j + k) none = some p

/-- A vertical run of `w` cells owned by `p` in column `c` starting at row `j`. -/
def colRun (board : Board) (g w : Nat) (p : Player) : Prop :=
  ∃ c, c < g ∧ ∃ j, j + w ≤ g ∧ ∀ k < w, board.getD ((j + k) * g + c) none = some p

/-- A down-right diagonal run of `w` cells owned by `p` starting at `(i, j)`. -/
def drRun (board : Board) (g w : Nat) (p : Player) : Prop :=
  ∃ i j, i + w ≤ g ∧ j + w ≤ g ∧
    ∀ k < w, board.getD ((i + k) * g + (j + k)) none = some p

/-- A down-left diagonal run of `w` cells owned by `p` starting at
`(i, w - 1 + j)`, ending at column `j`. -/
def dlRun (board : Board) (g w : Nat) (p : Player) : Prop :=
  ∃ i j, i + w ≤ g ∧ j + w ≤ g ∧
    ∀ k < w, board.getD ((i + k) * g + (w - 1 + j - k)) none = some p

/-- Some horizontal, vertical or diagonal run of `w` consecutive cells is
uniformly owned by `p`. -/
def hasRun (board : Board) (g w : Nat) (p : Player) : Prop :=
  rowRun board g w p ∨ colRun board g w p ∨ drRun board g w p ∨ dlRun board g w p

/-- The scan order the claim describes, modelled from its words: rows, then
columns, then down-right diagonals by ascending start cell index (all diagonals
starting in row 0 have the smallest start indices `0..g-1`, then those starting
in column 0 at rows `1..g-1`), then down-left diagonals by ascending start cell
index (row-0 starts `0..g-1`, then last-column starts at rows `1..g-1`). -/
def allLinesClaimOrder (g : Nat) : List (List Nat) :=
  ((List.range g).map (rowLine g)) ++
  ((List.range g).map (colLine g)) ++
  (((List.range g).map (diagDR1 g)) ++
    ((List.range (g - 1)).map fun j => diagDR0 g (j + 1))) ++
  (((List.range (g - 1)).map (diagDL1 g)) ++
    ((List.range g).map (diagDL0 g)))

/-- All scan windows in the claim's order. -/
def allSegmentsClaimOrder (g w : Nat) : List (List Nat) :=
  (allLinesClaimOrder g).flatMap (lineSegments w)

/-- The board refuting the claim's scan order: `X` on cells 1, 3, 5, 7. -/
def cexBoard : Board :=
  [none, some Player.X, none, some Player.X, none, some Player.X, none, some Player.X, none]

/-- A live decay position: `X` placed on cell 0 at turn 1, it is turn 2. -/
def c6Prev : DecayState :=
  { board := [some Player.X, none, none, none, none, none, none, none, none],
    currentPlayer := Player.O, turnNumber := 2, winner := none, winningLine := none,
    isDraw := false, placements := [⟨0, Player.X, 1⟩], expiringIndices := [] }

/-- Placing `p` at the empty cell `i` completes a `checkWinForPlayer` line. -/
def winsAt (board : Board) (p : Player) (g w i : Nat) : Prop :=
  board.getD i none = none ∧ checkWinForPlayer (board.set i (some p)) p g w = true

/-- A 3×3 position where `X` threatens `[0,1,2]` and the bot must block. -/
def c7Board : Board :=
  [some Player.X, some Player.X, none, none, some Player.O, none, none, none, none]

/-- Total pieces recorded in a memo key. -/
def keyTot (k : MemoKey) : Nat := invTotal k.invX + invTotal k.invO

/-- The top-owner board recorded in a memo key. -/
def keyBoard (k : MemoKey) : Board := k.cells.map fun cell => (cell.getLast?).map Prod.fst

/-- The winner, if any, of the board recorded in a memo key. -/
def keyWinner (g w : Nat) (k : MemoKey) : Option Player :=
  (checkWinner (keyBoard k) g w).map Prod.fst

/-- The search invariant for a key/value pair, relative to the root total `M`:
the key's ply is `M - keyTot`, a position already won by `O` is valued exactly
`1000 - ply`, any other position at most `999 - ply`, and every value is at
least `-999`. -/
def phi (g w M : Nat) (k : MemoKey) (v : Int) : Prop :=
  keyTot k < M ∧ (-999 : Int) ≤ v ∧
  (keyWinner g w k = some Player.O → v = 1000 - ((M - keyTot k : Nat) : Int)) ∧
  (keyWinner g w k ≠ some Player.O → v ≤ 999 - ((M - keyTot k : Nat) : Int))

/-- Every memo entry satisfies the invariant. -/
def memoOK (g w M : Nat) (memo : Memo) : Prop := ∀ kv ∈ memo, phi g w M kv.1 kv.2

/-- A move for `O` whose placement immediately yields a derived top-owner board
on which `checkWinner` reports `O` as the winner. -/
def oWinsAfter (g w : Nat) (cellStacks : CellStacks) (m : CircleMove) : Prop :=
  (checkWinner (getTopOwnerBoard (simStacks cellStacks m Player.O)) g w).map Prod.fst =
    some Player.O

/-- Modelled from the claim's words: plain minimax over the same move
generation and simulation, with no memoisation, no pruning and no depth limit —
a won board scores `±(1000 − ply)` from `O`'s view, a move-less board 0. -/
def pureMinimax (fuel : Nat) (g w : Nat) (cellStacks : CellStacks)
    (invX invO : CircleInventory) (player : Player) (ply : Nat) : Int :=
  match fuel with
  | 0 => 0
  | fuel + 1 =>
    match checkWinner (getTopOwnerBoard cellStacks) g w with
    | some pr => terminalScore pr.1 ply
    | none =>
      let inv := if player = Player.X then invX else invO
      let moves := getValidCircleMoves cellStacks inv
      if moves.isEmpty then 0
      else
        let vals := moves.map fun m =>
          pureMinimax fuel g w (simStacks cellStacks m player)
            (if player = Player.X then decInv inv m.size else invX)
            (if player = Player.X then invO else decInv inv m.size)
            (otherPlayer player) (ply + 1)
        if player = Player.O then (vals.max?).getD 0 else (vals.min?).getD 0

/-- Modelled from the claim's words: the legal move whose resulting position
has the strictly highest (pure) minimax score, ties broken in favour of the
first move in the size-then-cell iteration order; `none` iff no legal move. -/
def claimRootMove (cellStacks : CellStacks) (invX invO : CircleInventory)
    (player : Player) (g w : Nat) : Option CircleMove :=
  let inv := if player = Player.X then invX else invO
  match getValidCircleMoves cellStacks inv with
  | [] => none
  | m0 :: rest =>
    let fuel := invTotal invX + invTotal invO
    let score := fun (m : CircleMove) =>
      pureMinimax fuel g w (simStacks cellStacks m player)
        (if player = Player.X then decInv inv m.size else invX)
        (if player = Player.X then invO else decInv inv m.size)
        (otherPlayer player) 1
    some ((rest.foldl (fun best m => if best.2 < score m then (m, score m) else best)
      (m0, score m0)).1)

/-- The scores the implementation's root loop assigns to the root moves, in
order, threading the shared memo exactly as `rootLoop` does. -/
def rootScores (fuel : Nat) (g w : Nat) (maxDepth : Option Nat) (cellStacks : CellStacks)
    (invX invO : CircleInventory) (currentPlayer : Player) :
    List CircleMove → Memo → List Int
  | [], _ => []
  | m :: rest, memo =>
    let rootInv := if currentPlayer = Player.X then invX else invO
    let item := simItem cellStacks rootInv m currentPlayer
    let r := minimax fuel g w maxDepth item.newStacks
      (if currentPlayer = Player.X then item.newInventory else invX)
      (if currentPlayer = Player.X then invO else item.newInventory)
      (otherPlayer currentPlayer) 1 negInf posInf memo
    r.1 :: rootScores fuel g w maxDepth cellStacks invX invO currentPlayer rest r.2

/-- The root loop's selection rule in isolation: walk moves and scores in
lockstep, keeping the incumbent unless the next score is strictly higher. -/
def pickFirst : List CircleMove → List Int → CircleMove → Int → CircleMove × Int
  | m :: ms, s :: ss, bm, bs =>
    if bs < s then pickFirst ms ss m s else pickFirst ms ss bm bs
  | _, _, bm, bs => (bm, bs)

/-- The legal moves of one size, the body of `getValidCircleMoves`' flatMap. -/
def movesForSize (cellStacks : CellStacks) (inventory : CircleInventory) (size : Nat) :
    List CircleMove :=
  if invForSize inventory size ≤ 0 then []
  else
    (List.range cellStacks.length).filterMap fun cellIndex =>
      if isValidCirclePlacement cellStacks cellIndex size then
        some ⟨cellIndex, size⟩
      else none

/-- The C8 counterexample position: a reachable 3×3 circles position (five
circles placed, five left in stock) with `O` to move. -/
def c8Stacks : CellStacks :=
  [[], [], [⟨1, Player.X, 3⟩], [⟨2, Player.X, 3⟩], [], [],
   [⟨3, Player.O, 3⟩], [⟨4, Player.X, 2⟩], [⟨5, Player.O, 3⟩]]

/-- The C8 counterexample: `X`'s inventory (one small, one medium left). -/
def c8InvX : CircleInventory := ⟨1, 1, 0⟩

/-- The C8 counterexample: `O`'s inventory (two small, one medium left). -/
def c8InvO : CircleInventory := ⟨2, 1, 0⟩

theorem isValid_iff (s : CellStacks) (i z : Nat) :
    isValidCirclePlacement s i z = true ↔
      ((s.getD i []).getLast? = none ∨ ∃ c, (s.getD i []).getLast? = some c ∧ c.size < z) := by
  unfold isValidCirclePlacement
  cases h : (s.getD i []).getLast? with
  | none => simp
  | some c => simp [h]

theorem placeCircle_ok_iff (s : CellStacks) (inv : CircleInventory) (i z : Nat)
    (pl : Player) (newId : Nat) (r : PlaceResult) :
    placeCircle s inv i z pl newId = Except.ok r ↔
      isValidCirclePlacement s i z = true ∧ 0 < inv.get (getSizeKey z) ∧
      r = ⟨s.set i ((s.getD i []).dropLast ++ [⟨newId, pl, z⟩]),
           inv.set (getSizeKey z) (inv.get (getSizeKey z) - 1),
           (s.getD i []).getLast?⟩ := by
  unfold placeCircle
  by_cases hv : isValidCirclePlacement s i z = true
  · by_cases hi : inv.get (getSizeKey z) ≤ 0
    · simp [hv, hi]
      try omega
    · simp [hv, hi, eq_comm]
      try omega
  · simp [hv]

theorem placeCircle_error_cases (s : CellStacks) (inv : CircleInventory) (i z : Nat)
    (pl : Player) (newId : Nat) :
    (placeCircle s inv i z pl newId = Except.error PlaceError.invalidPlacement ↔
        isValidCirclePlacement s i z = false) ∧
    (placeCircle s inv i z pl newId = Except.error PlaceError.inventoryExhausted ↔
        isValidCirclePlacement s i z = true ∧ inv.get (getSizeKey z) = 0) := by
  unfold placeCircle
  by_cases hv : isValidCirclePlacement s i z = true
  · by_cases hi : inv.get (getSizeKey z) ≤ 0
    · simp [hv, hi]
      try omega
    · simp [hv, hi]
      try omega
  · simp [hv]

/-! ## C3 — `placeCircle` error behaviour -/

/-- C3.  `placeCircle` fails exactly when the target cell's top circle is at
least as large as the requested size (then with `InvalidPlacement` — this check
comes first) or when the mover has no circle of that size left (then, the
placement being otherwise legal, with `InventoryExhausted`); in every error
case no result is produced, and since the source throws before mutating its
(cloned) data, the caller's stacks and inventory are untouched, so a rejected
move is a no-op.  The hypothesis `hi` restricts to real cell indices: on an
out-of-range index the source code throws a `TypeError` instead. -/
theorem placeCircle_error_iff (s : CellStacks) (inv : CircleInventory) (i z : Nat)
    (pl : Player) (newId : Nat) (_hi : i < s.length) :
    ((∃ e, placeCircle s inv i z pl newId = Except.error e) ↔
      (∃ c, (s.getD i []).getLast? = some c ∧ z ≤ c.size) ∨ inv.get (getSizeKey z) = 0) ∧
    (placeCircle s inv i z pl newId = Except.error PlaceError.invalidPlacement ↔
      ∃ c, (s.getD i []).getLast? = some c ∧ z ≤ c.size) ∧
    (placeCircle s inv i z pl newId = Except.error PlaceError.inventoryExhausted ↔
      (∀ c, (s.getD i []).getLast? = some c → c.size < z) ∧ inv.get (getSizeKey z) = 0) := by
  have hcases := placeCircle_error_cases s inv i z pl newId
  have hvalid : isValidCirclePlacement s i z = false ↔
      ∃ c, (s.getD i []).getLast? = some c ∧ z ≤ c.size := by
    rw [← Bool.not_eq_true, isValid_iff]
    cases h : (s.getD i []).getLast? with
    | none => simp
    | some c => simp [h]; try omega
  have hvalid2 : isValidCirclePlacement s i z = true ↔
      ∀ c, (s.getD i []).getLast? = some c → c.size < z := by
    rw [isValid_iff]
    cases h : (s.getD i []).getLast? with
    | none => simp
    | some c => simp [h]
  refine ⟨?_, by rw [hcases.1, hvalid], by rw [hcases.2, hvalid2]⟩
  constructor
  · rintro ⟨e, he⟩
    cases e with
    | invalidPlacement => exact Or.inl (hvalid.mp (hcases.1.mp he))
    | inventoryExhausted => exact Or.inr (hcases.2.mp he).2
  · rintro (hbig | hzero)
    · exact ⟨PlaceError.invalidPlacement, hcases.1.mpr (hvalid.mpr hbig)⟩
    · by_cases hv : isValidCirclePlacement s i z = true
      · exact ⟨PlaceError.inventoryExhausted, hcases.2.mpr ⟨hv, hzero⟩⟩
      · exact ⟨PlaceError.invalidPlacement,
          hcases.1.mpr (by simpa using hv)⟩

/-- Witness for C3: on a cell topped by a size-2 circle, placing size 1 is an
`InvalidPlacement`; and with an empty small slot, placing size 1 on an empty
cell is an `InventoryExhausted`. -/
theorem placeCircle_error_iff_witness :
    (0 < ([[ ], [⟨7, Player.X, 2⟩]] : CellStacks).length ∧
      (placeCircle [[], [⟨7, Player.X, 2⟩]] ⟨2, 2, 2⟩ 1 1 Player.O 9 =
          Except.error PlaceError.invalidPlacement ↔
        ∃ c, (([[], [⟨7, Player.X, 2⟩]] : CellStacks).getD 1 []).getLast? = some c ∧
          1 ≤ c.size)) ∧
    (placeCircle [[], [⟨7, Player.X, 2⟩]] ⟨0, 2, 2⟩ 0 1 Player.O 9 =
        Except.error PlaceError.inventoryExhausted ↔
      (∀ c, (([[], [⟨7, Player.X, 2⟩]] : CellStacks).getD 0 []).getLast? = some c →
        c.size < 1) ∧ (⟨0, 2, 2⟩ : CircleInventory).get (getSizeKey 1) = 0) :=
  ⟨⟨by decide,
    (placeCircle_error_iff [[], [⟨7, Player.X, 2⟩]] ⟨2, 2, 2⟩ 1 1 Player.O 9
      (by decide)).2.1⟩,
    (placeCircle_error_iff [[], [⟨7, Player.X, 2⟩]] ⟨0, 2, 2⟩ 0 1 Player.O 9
      (by decide)).2.2⟩

/-! ## C4 — `placeCircle` success effects -/

/-- C4.  On success, the mover's slot for the placed size drops by exactly one
and the other two slots are unchanged (in particular no slot ever increases, so
a captured circle is banked nowhere); the target cell's former top — reported
as `capturedCircle` — is popped and the new circle pushed, every other cell's
stack is untouched; and under the uniqueness of ids that the source's
`crypto.randomUUID()` provides (the captured circle's id occurs only at that
top, and the fresh id differs), the captured circle is absent from every stack
afterwards: it has left play entirely. -/
theorem placeCircle_success_effects (s : CellStacks) (inv : CircleInventory) (i z : Nat)
    (pl : Player) (newId : Nat) (r : PlaceResult) (hi : i < s.length)
    (h : placeCircle s inv i z pl newId = Except.ok r) :
    (r.newInventory.get (getSizeKey z) + 1 = inv.get (getSizeKey z) ∧
      ∀ k, k ≠ getSizeKey z → r.newInventory.get k = inv.get k) ∧
    (∀ k, r.newInventory.get k ≤ inv.get k) ∧
    r.newStacks.length = s.length ∧
    r.newStacks.getD i [] = (s.getD i []).dropLast ++ [⟨newId, pl, z⟩] ∧
    (∀ j, j ≠ i → r.newStacks.getD j [] = s.getD j []) ∧
    r.capturedCircle = (s.getD i []).getLast? ∧
    (∀ c, r.capturedCircle = some c →
      (∀ j, j ≠ i → ∀ x ∈ s.getD j [], x.id ≠ c.id) →
      (∀ x ∈ (s.getD i []).dropLast, x.id ≠ c.id) →
      newId ≠ c.id →
      ∀ j, ∀ x ∈ r.newStacks.getD j [], x.id ≠ c.id) := by
  obtain ⟨hv, hpos, rfl⟩ := (placeCircle_ok_iff s inv i z pl newId r).mp h
  have hslot : ∀ k n, (inv.set k n).get k = n := by
    intro k n
    cases k <;> rfl
  have hslot2 : ∀ k k' n, k' ≠ k → (inv.set k n).get k' = inv.get k' := by
    intro k k' n hne
    cases k <;> cases k' <;> first | rfl | exact absurd rfl hne
  have hgetset : (s.set i ((s.getD i []).dropLast ++ [⟨newId, pl, z⟩])).getD i [] =
      (s.getD i []).dropLast ++ [⟨newId, pl, z⟩] := by
    rw [List.getD_eq_getElem?_getD, List.getElem?_set_self hi]
    rfl
  have hgetother : ∀ j, j ≠ i →
      (s.set i ((s.getD i []).dropLast ++ [⟨newId, pl, z⟩])).getD j [] = s.getD j [] := by
    intro j hj
    rw [List.getD_eq_getElem?_getD, List.getElem?_set_ne (fun e => hj e.symm),
      ← List.getD_eq_getElem?_getD]
  refine ⟨⟨?_, ?_⟩, ?_, by simp, hgetset, hgetother, rfl, ?_⟩
  · simp only [hslot]
    omega
  · intro k hk
    exact hslot2 _ _ _ hk
  · intro k
    by_cases hk : k = getSizeKey z
    · subst hk
      rw [hslot]
      omega
    · rw [hslot2 _ _ _ hk]
  · intro c hc hothers hbelow hnew j x hx
    by_cases hj : j = i
    · subst hj
      rw [hgetset] at hx
      rcases List.mem_append.mp hx with hx | hx
      · exact hbelow x hx
      · have : x = (⟨newId, pl, z⟩ : Circle) := by simpa using hx
        subst this
        simpa using hnew
    · rw [hgetother j hj] at hx
      exact hothers j hj x hx

/-- Witness for C4: `O` places a size-2 circle on a cell topped by `X`'s size-1
circle; the size-1 circle is captured and gone, and only the medium slot drops. -/
theorem placeCircle_success_effects_witness :
    (0 : Nat) < ([[⟨3, Player.X, 1⟩], []] : CellStacks).length ∧
    placeCircle [[⟨3, Player.X, 1⟩], []] ⟨2, 2, 2⟩ 0 2 Player.O 9 =
      Except.ok ⟨[[⟨9, Player.O, 2⟩], []], ⟨2, 1, 2⟩, some ⟨3, Player.X, 1⟩⟩ ∧
    ((⟨2, 1, 2⟩ : CircleInventory).get (getSizeKey 2) + 1 =
        (⟨2, 2, 2⟩ : CircleInventory).get (getSizeKey 2) ∧
      ∀ k, k ≠ getSizeKey 2 →
        (⟨2, 1, 2⟩ : CircleInventory).get k = (⟨2, 2, 2⟩ : CircleInventory).get k) ∧
    (∀ k, (⟨2, 1, 2⟩ : CircleInventory).get k ≤ (⟨2, 2, 2⟩ : CircleInventory).get k) ∧
    ([[⟨9, Player.O, 2⟩], []] : CellStacks).length = ([[⟨3, Player.X, 1⟩], []] : CellStacks).length ∧
    ([[⟨9, Player.O, 2⟩], []] : CellStacks).getD 0 [] =
      (([[⟨3, Player.X, 1⟩], []] : CellStacks).getD 0 []).dropLast ++ [⟨9, Player.O, 2⟩] ∧
    (∀ j, j ≠ 0 → ([[⟨9, Player.O, 2⟩], []] : CellStacks).getD j [] =
      ([[⟨3, Player.X, 1⟩], []] : CellStacks).getD j []) ∧
    (some ⟨3, Player.X, 1⟩ : Option Circle) =
      (([[⟨3, Player.X, 1⟩], []] : CellStacks).getD 0 []).getLast? ∧
    (∀ c, (some ⟨3, Player.X, 1⟩ : Option Circle) = some c →
      (∀ j, j ≠ 0 → ∀ x ∈ ([[⟨3, Player.X, 1⟩], []] : CellStacks).getD j [], x.id ≠ c.id) →
      (∀ x ∈ (([[⟨3, Player.X, 1⟩], []] : CellStacks).getD 0 []).dropLast, x.id ≠ c.id) →
      (9 : Nat) ≠ c.id →
      ∀ j, ∀ x ∈ ([[⟨9, Player.O, 2⟩], []] : CellStacks).getD j [], x.id ≠ c.id) :=
  ⟨by decide, by rfl,
    (let h : placeCircle [[⟨3, Player.X, 1⟩], []] ⟨2, 2, 2⟩ 0 2 Player.O 9 =
        Except.ok ⟨[[⟨9, Player.O, 2⟩], []], ⟨2, 1, 2⟩, some ⟨3, Player.X, 1⟩⟩ := by rfl
     placeCircle_success_effects [[⟨3, Player.X, 1⟩], []] ⟨2, 2, 2⟩ 0 2 Player.O 9
      ⟨[[⟨9, Player.O, 2⟩], []], ⟨2, 1, 2⟩, some ⟨3, Player.X, 1⟩⟩ (by decide) h)⟩

/-! ## C5 — circles draw detection -/

theorem invForSize_eq_get (inv : CircleInventory) (z : Nat) :
    invForSize inv z = inv.get (getSizeKey z) := by
  unfold invForSize getSizeKey
  by_cases h1 : z = 1
  · simp [h1, CircleInventory.get]
  · by_cases h2 : z = 2 <;> simp [h1, h2, CircleInventory.get]

theorem hasValidMoves_iff (s : CellStacks) (inv : CircleInventory) :
    hasValidMoves s inv = true ↔
      ∃ z ∈ ([1, 2, 3] : List Nat), 0 < inv.get (getSizeKey z) ∧
        ∃ i < s.length, isValidCirclePlacement s i z = true := by
  unfold hasValidMoves
  simp only [List.any_eq_true, List.mem_range]
  constructor
  · rintro ⟨z, hz, h⟩
    by_cases hzero : inv.get (getSizeKey z) ≤ 0
    · rw [if_pos hzero] at h
      exact absurd h (by simp)
    · rw [if_neg hzero] at h
      obtain ⟨i, hi, hvalid⟩ := List.any_eq_true.mp h
      exact ⟨z, hz, by omega, i, List.mem_range.mp hi, hvalid⟩
  · rintro ⟨z, hz, hpos, i, hi, hvalid⟩
    refine ⟨z, hz, ?_⟩
    rw [if_neg (by omega)]
    exact List.any_eq_true.mpr ⟨i, List.mem_range.mpr hi, hvalid⟩

/-- C5.  `checkCirclesDraw` is true exactly when neither player has a legal
move: for each player, every size still in stock fits no cell — no cell is
empty or topped by a strictly smaller circle.  In particular the draw holds
whenever both inventories are exhausted. -/
theorem checkCirclesDraw_iff (s : CellStacks) (invX invO : CircleInventory) :
    (checkCirclesDraw s invX invO = true ↔
      ((∀ z ∈ ([1, 2, 3] : List Nat), 0 < invForSize invX z → ∀ i < s.length,
          ¬(s.getD i [] = [] ∨ ∃ c, (s.getD i []).getLast? = some c ∧ c.size < z)) ∧
       (∀ z ∈ ([1, 2, 3] : List Nat), 0 < invForSize invO z → ∀ i < s.length,
          ¬(s.getD i [] = [] ∨ ∃ c, (s.getD i []).getLast? = some c ∧ c.size < z)))) ∧
    (invX = ⟨0, 0, 0⟩ → invO = ⟨0, 0, 0⟩ → checkCirclesDraw s invX invO = true) := by
  have hvalid : ∀ z i, isValidCirclePlacement s i z = true ↔
      (s.getD i [] = [] ∨ ∃ c, (s.getD i []).getLast? = some c ∧ c.size < z) := by
    intro z i
    rw [isValid_iff, List.getLast?_eq_none_iff]
  have hmain : checkCirclesDraw s invX invO = true ↔
      ((∀ z ∈ ([1, 2, 3] : List Nat), 0 < invForSize invX z → ∀ i < s.length,
          ¬(s.getD i [] = [] ∨ ∃ c, (s.getD i []).getLast? = some c ∧ c.size < z)) ∧
       (∀ z ∈ ([1, 2, 3] : List Nat), 0 < invForSize invO z → ∀ i < s.length,
          ¬(s.getD i [] = [] ∨ ∃ c, (s.getD i []).getLast? = some c ∧ c.size < z))) := by
    unfold checkCirclesDraw
    rw [decide_eq_true_eq]
    constructor
    · rintro ⟨hX, hO⟩
      constructor
      · intro z hz hpos i hi hbad
        exact hX (hasValidMoves_iff s invX |>.mpr
          ⟨z, hz, by rw [← invForSize_eq_get]; omega, i, hi, (hvalid z i).mpr hbad⟩)
      · intro z hz hpos i hi hbad
        exact hO (hasValidMoves_iff s invO |>.mpr
          ⟨z, hz, by rw [← invForSize_eq_get]; omega, i, hi, (hvalid z i).mpr hbad⟩)
    · rintro ⟨hX, hO⟩
      constructor
      · intro hmoves
        obtain ⟨z, hz, hpos, i, hi, hv⟩ := (hasValidMoves_iff s invX).mp hmoves
        exact hX z hz (by rw [invForSize_eq_get]; omega) i hi ((hvalid z i).mp hv)
      · intro hmoves
        obtain ⟨z, hz, hpos, i, hi, hv⟩ := (hasValidMoves_iff s invO).mp hmoves
        exact hO z hz (by rw [invForSize_eq_get]; omega) i hi ((hvalid z i).mp hv)
  refine ⟨hmain, ?_⟩
  rintro rfl rfl
  rw [hmain]
  constructor
  · intro z hz hpos
    have : invForSize ⟨0, 0, 0⟩ z = 0 := by
      unfold invForSize
      split <;> try split
      all_goals rfl
    omega
  · intro z hz hpos
    have : invForSize ⟨0, 0, 0⟩ z = 0 := by
      unfold invForSize
      split <;> try split
      all_goals rfl
    omega

/-! ## C9 — at most one circle per cell -/

theorem simulateCircleMove_ok_iff (s : CellStacks) (inv : CircleInventory) (m : CircleMove)
    (pl : Player) (res : CellStacks × CircleInventory × Nat) :
    simulateCircleMove s inv m pl = Except.ok res ↔
      0 < invForSize inv m.size ∧ isValidCirclePlacement s m.cellIndex m.size = true ∧
      res = (simStacks s m pl, decInv inv m.size, simCapturedSize s m) := by
  unfold simulateCircleMove
  by_cases hz : invForSize inv m.size ≤ 0
  · simp [hz]
    try omega
  · by_cases hv : isValidCirclePlacement s m.cellIndex m.size = true
    · simp [hz, hv, eq_comm]
      omega
    · simp [hz, hv]

theorem stackHeight_step (s : CellStacks) (i : Nat) (c : Circle)
    (hinv : ∀ st ∈ s, st.length ≤ 1) :
    ∀ st ∈ s.set i ((s.getD i []).dropLast ++ [c]), st.length ≤ 1 := by
  intro st hst
  rcases List.mem_or_eq_of_mem_set hst with hmem | rfl
  · exact hinv st hmem
  · rw [List.length_append, List.length_dropLast]
    have : (s.getD i []).length ≤ 1 := by
      by_cases hi : i < s.length
      · rw [List.getD_eq_getElem _ _ hi]
        exact hinv _ (List.getElem_mem hi)
      · rw [List.getD_eq_getElem?_getD, List.getElem?_eq_none (by omega)]
        simp
    simp only [List.length_singleton]
    omega

/-- C9.  In every board state reachable from the all-empty stacks through
successful `placeCircle` or `simulateCircleMove` calls, every cell stack holds
at most one circle: a capturing placement pops the old top before pushing the
new circle, so the stack-shaped data never actually stacks two circles. -/
theorem reachable_stack_height_le_one (s : CellStacks) (h : ReachableStacks s) :
    ∀ st ∈ s, st.length ≤ 1 := by
  induction h with
  | init n =>
    intro st hst
    rw [List.eq_of_mem_replicate hst]
    simp
  | place s inv i z pl newId r hs hok ih =>
    obtain ⟨_, _, rfl⟩ := (placeCircle_ok_iff s inv i z pl newId r).mp hok
    exact stackHeight_step s i _ ih
  | sim s inv m pl res hs hok ih =>
    obtain ⟨_, _, rfl⟩ := (simulateCircleMove_ok_iff s inv m pl res).mp hok
    exact stackHeight_step s m.cellIndex _ ih

/-- Witness for C9: after one placement from the empty 9-cell board, the
occupied stack holds at most one circle. -/
theorem reachable_stack_height_le_one_witness :
    ([(⟨5, Player.X, 1⟩ : Circle)]).length ≤ 1 :=
  reachable_stack_height_le_one
    [[⟨5, Player.X, 1⟩], [], [], [], [], [], [], [], []]
    (ReachableStacks.place (List.replicate 9 []) ⟨2, 2, 2⟩ 0 1 Player.X 5
      ⟨[[⟨5, Player.X, 1⟩], [], [], [], [], [], [], [], []], ⟨1, 2, 2⟩, none⟩
      (ReachableStacks.init 9) (by rfl))
    [⟨5, Player.X, 1⟩] (by simp)

/-! ## Scan-order machinery for `checkWinner` (C1, C10) -/

theorem findSome?_flatMap {α β γ : Type} (l : List α) (f : α → List β) (p : β → Option γ) :
    (l.flatMap f).findSome? p = l.findSome? fun a => (f a).findSome? p := by
  induction l with
  | nil => rfl
  | cons a l ih =>
    rw [List.flatMap_cons, List.findSome?_append, ih, List.findSome?_cons]
    cases h : (f a).findSome? p <;> simp [h, Option.or]

theorem checkLine_eq_findSome (board : Board) (w : Nat) (line : List Nat) :
    checkLine board w line = (lineSegments w line).findSome? (segWin board) := by
  unfold checkLine lineSegments
  by_cases h : line.length < w
  · simp [h]
  · rw [if_neg h, if_neg h, List.findSome?_map]
    rfl

theorem checkWinner_eq_scan (board : Board) (g w : Nat) :
    checkWinner board g w = (allSegments g w).findSome? (segWin board) := by
  unfold checkWinner allSegments
  rw [findSome?_flatMap]
  congr 1
  funext line
  exact checkLine_eq_findSome board w line

theorem findSome?_eq_some_first {α β : Type} (l : List α) (f : α → Option β) (b : β)
    (h : l.findSome? f = some b) :
    ∃ l1 a l2, l = l1 ++ a :: l2 ∧ f a = some b ∧ ∀ x ∈ l1, f x = none := by
  induction l with
  | nil => simp at h
  | cons a l ih =>
    rw [List.findSome?_cons] at h
    cases ha : f a with
    | some c =>
      rw [ha] at h
      exact ⟨[], a, l, by simp, by simp at h; rw [ha, h], by simp⟩
    | none =>
      rw [ha] at h
      obtain ⟨l1, x, l2, rfl, hx, hnone⟩ := ih h
      refine ⟨a :: l1, x, l2, by simp, hx, ?_⟩
      intro y hy
      rcases List.mem_cons.mp hy with rfl | hy
      · exact ha
      · exact hnone y hy

theorem segWin_eq_some_iff (board : Board) (seg : List Nat) (pr : Player × List Nat) :
    segWin board seg = some pr ↔ segOwner board seg = some pr.1 ∧ pr.2 = seg := by
  unfold segWin
  cases h : segOwner board seg with
  | none => simp
  | some p =>
    simp only [h, Option.some.injEq]
    constructor
    · rintro rfl
      exact ⟨rfl, rfl⟩
    · rintro ⟨hp, hs⟩
      cases pr
      simp_all

theorem segWin_isSome_iff (board : Board) (seg : List Nat) :
    (segWin board seg).isSome = true ↔ ∃ p, segOwner board seg = some p := by
  unfold segWin
  cases h : segOwner board seg <;> simp

/-! ### Window geometry -/

theorem segmentAt_map_range (f : Nat → Nat) (L w i : Nat) (h : i + w ≤ L) :
    segmentAt ((List.range L).map f) w i = (List.range w).map fun k => f (i + k) := by
  unfold segmentAt
  apply List.ext_getElem
  · simp
    omega
  · intro n h1 h2
    simp only [List.getElem_take, List.getElem_drop, List.getElem_map, List.getElem_range]

theorem head?_range_map (f : Nat → Nat) (w : Nat) (hw : 1 ≤ w) :
    (((List.range w).map f).head?) = some (f 0) := by
  obtain ⟨w, rfl⟩ := Nat.exists_eq_add_of_le hw
  rw [Nat.add_comm, List.range_succ_eq_map]
  rfl

theorem segOwner_map_range (board : Board) (w : Nat) (f : Nat → Nat) (p : Player)
    (hw : 1 ≤ w) :
    segOwner board ((List.range w).map f) = some p ↔
      ∀ k < w, board.getD (f k) none = some p := by
  obtain ⟨w, rfl⟩ : ∃ v, w = v + 1 := ⟨w - 1, by omega⟩
  have hcons : (List.range (w + 1)).map f =
      f 0 :: (List.range w).map fun k => f (k + 1) := by
    rw [List.range_succ_eq_map, List.map_cons, List.map_map]
    rfl
  rw [hcons]
  show (match board.getD (f 0) none with
    | none => none
    | some q =>
      if (f 0 :: (List.range w).map fun k => f (k + 1)).all
          (fun idx => board.getD idx none = some q) then some q else none) = some p ↔ _
  cases hb : board.getD (f 0) none with
  | none =>
    dsimp only
    constructor
    · intro h
      exact absurd h (by simp)
    · intro h
      have h0 := h 0 (Nat.succ_pos _)
      rw [hb] at h0
      exact absurd h0 (by simp)
  | some q =>
    dsimp only
    by_cases hall : ((f 0 :: (List.range w).map fun k => f (k + 1)).all
        (fun idx => board.getD idx none = some q)) = true
    · rw [if_pos hall]
      have hmem := List.all_eq_true.mp hall
      constructor
      · intro h
        have hqp : q = p := by simpa using h
        subst hqp
        intro k hk
        match k, hk with
        | 0, _ => exact hb
        | k + 1, hk =>
          have := hmem (f (k + 1)) (by
            simp only [List.mem_cons, List.mem_map, List.mem_range]
            exact Or.inr ⟨k, by omega, rfl⟩)
          exact of_decide_eq_true this
      · intro h
        have h0 := h 0 (Nat.succ_pos _)
        rw [hb] at h0
        simpa using h0
    · rw [if_neg hall]
      constructor
      · intro h
        exact absurd h (by simp)
      · intro h
        exfalso
        apply hall
        have hqp : q = p := by
          have h0 := h 0 (Nat.succ_pos _)
          rw [hb] at h0
          simpa using h0
        subst hqp
        apply List.all_eq_true.mpr
        intro x hx
        rcases List.mem_cons.mp hx with rfl | hx
        · exact decide_eq_true (h 0 (Nat.succ_pos _))
        · obtain ⟨k, hk, rfl⟩ := by
            simpa only [List.mem_map, List.mem_range] using hx
          exact decide_eq_true (h (k + 1) (by omega))

/-! ### Run predicates

The four kinds of uniform `w`-in-a-row runs, phrased exactly as the window
index arithmetic of `checkWinForPlayer` (`src/utils/bot.ts`). -/

theorem rowLine_length (g r : Nat) : (rowLine g r).length = g := by simp [rowLine]

theorem colLine_length (g c : Nat) : (colLine g c).length = g := by simp [colLine]

theorem diagDR0_length (g sr : Nat) : (diagDR0 g sr).length = g - sr := by simp [diagDR0]

theorem diagDR1_length (g sc : Nat) : (diagDR1 g sc).length = g - sc := by simp [diagDR1]

theorem diagDL0_length (g sr : Nat) : (diagDL0 g sr).length = g - sr := by simp [diagDL0]

theorem diagDL1_length (g sc : Nat) : (diagDL1 g sc).length = sc + 1 := by simp [diagDL1]

theorem mem_lineSegments (w : Nat) (line : List Nat) (seg : List Nat) :
    seg ∈ lineSegments w line ↔
      ∃ i, i + w ≤ line.length ∧ seg = segmentAt line w i := by
  unfold lineSegments
  by_cases h : line.length < w
  · rw [if_pos h]
    simp only [List.not_mem_nil, false_iff]
    rintro ⟨i, hi, -⟩
    omega
  · rw [if_neg h]
    simp only [List.mem_map, List.mem_range]
    constructor
    · rintro ⟨i, hi, rfl⟩
      exact ⟨i, by omega, rfl⟩
    · rintro ⟨i, hi, rfl⟩
      exact ⟨i, by omega, rfl⟩

/-- Rows of the scan hold a winning window for `p` iff a horizontal run exists. -/
theorem group_row_iff (board : Board) (g w : Nat) (p : Player) (hw : 1 ≤ w) :
    (∃ r < g, ∃ seg ∈ lineSegments w (rowLine g r), segOwner board seg = some p) ↔
      rowRun board g w p := by
  constructor
  · rintro ⟨r, hr, seg, hseg, howner⟩
    obtain ⟨i, hi, rfl⟩ := (mem_lineSegments w _ seg).mp hseg
    rw [rowLine_length] at hi
    rw [rowLine, segmentAt_map_range _ g w i hi] at howner
    rw [segOwner_map_range board w _ p hw] at howner
    refine ⟨r, hr, i, hi, fun k hk => ?_⟩
    have := howner k hk
    have e : r * g + i + k = r * g + (i + k) := by omega
    rw [e]
    exact this
  · rintro ⟨r, hr, j, hj, hcells⟩
    refine ⟨r, hr, segmentAt (rowLine g r) w j,
      (mem_lineSegments w _ _).mpr ⟨j, by rw [rowLine_length]; omega, rfl⟩, ?_⟩
    rw [rowLine, segmentAt_map_range _ g w j (by omega),
      segOwner_map_range board w _ p hw]
    intro k hk
    have := hcells k hk
    have e : r * g + j + k = r * g + (j + k) := by omega
    rw [e] at this
    exact this

/-- Columns of the scan hold a winning window for `p` iff a vertical run exists. -/
theorem group_col_iff (board : Board) (g w : Nat) (p : Player) (hw : 1 ≤ w) :
    (∃ c < g, ∃ seg ∈ lineSegments w (colLine g c), segOwner board seg = some p) ↔
      colRun board g w p := by
  constructor
  · rintro ⟨c, hc, seg, hseg, howner⟩
    obtain ⟨i, hi, rfl⟩ := (mem_lineSegments w _ seg).mp hseg
    rw [colLine_length] at hi
    rw [colLine, segmentAt_map_range _ g w i hi] at howner
    rw [segOwner_map_range board w _ p hw] at howner
    exact ⟨c, hc, i, hi, howner⟩
  · rintro ⟨c, hc, j, hj, hcells⟩
    refine ⟨c, hc, segmentAt (colLine g c) w j,
      (mem_lineSegments w _ _).mpr ⟨j, by rw [colLine_length]; omega, rfl⟩, ?_⟩
    rw [colLine, segmentAt_map_range _ g w j (by omega),
      segOwner_map_range board w _ p hw]
    exact hcells

/-- The two down-right diagonal scans hold a winning window for `p` iff a
down-right diagonal run exists. -/
theorem group_dr_iff (board : Board) (g w : Nat) (p : Player) (hw : 1 ≤ w) :
    ((∃ sr < g, ∃ seg ∈ lineSegments w (diagDR0 g sr), segOwner board seg = some p) ∨
     (∃ j < g - 1, ∃ seg ∈ lineSegments w (diagDR1 g (j + 1)), segOwner board seg = some p)) ↔
      drRun board g w p := by
  constructor
  · rintro (⟨sr, hsr, seg, hseg, howner⟩ | ⟨j, hj, seg, hseg, howner⟩)
    · obtain ⟨i, hi, rfl⟩ := (mem_lineSegments w _ seg).mp hseg
      rw [diagDR0_length] at hi
      rw [diagDR0, segmentAt_map_range _ (g - sr) w i hi] at howner
      rw [segOwner_map_range board w _ p hw] at howner
      refine ⟨sr + i, i, by omega, by omega, fun k hk => ?_⟩
      have := howner k hk
      have e : sr + (i + k) = sr + i + k := by omega
      rw [e] at this
      exact this
    · obtain ⟨i, hi, rfl⟩ := (mem_lineSegments w _ seg).mp hseg
      rw [diagDR1_length] at hi
      rw [diagDR1, segmentAt_map_range _ (g - (j + 1)) w i hi] at howner
      rw [segOwner_map_range board w _ p hw] at howner
      refine ⟨i, j + 1 + i, by omega, by omega, fun k hk => ?_⟩
      have := howner k hk
      have e : j + 1 + (i + k) = j + 1 + i + k := by omega
      rw [e] at this
      exact this
  · rintro ⟨i0, j0, hi0, hj0, hcells⟩
    by_cases hcase : j0 ≤ i0
    · left
      refine ⟨i0 - j0, by omega, segmentAt (diagDR0 g (i0 - j0)) w j0,
        (mem_lineSegments w _ _).mpr ⟨j0, by rw [diagDR0_length]; omega, rfl⟩, ?_⟩
      rw [diagDR0, segmentAt_map_range _ (g - (i0 - j0)) w j0 (by omega),
        segOwner_map_range board w _ p hw]
      intro k hk
      have := hcells k hk
      have e : i0 - j0 + (j0 + k) = i0 + k := by omega
      rw [e]
      exact this
    · right
      refine ⟨j0 - i0 - 1, by omega, segmentAt (diagDR1 g (j0 - i0 - 1 + 1)) w i0,
        (mem_lineSegments w _ _).mpr ⟨i0, by rw [diagDR1_length]; omega, rfl⟩, ?_⟩
      rw [diagDR1, segmentAt_map_range _ (g - (j0 - i0 - 1 + 1)) w i0 (by omega),
        segOwner_map_range board w _ p hw]
      intro k hk
      have := hcells k hk
      have e : j0 - i0 - 1 + 1 + (i0 + k) = j0 + k := by omega
      rw [e]
      exact this

/-- The two down-left diagonal scans hold a winning window for `p` iff a
down-left diagonal run exists. -/
theorem group_dl_iff (board : Board) (g w : Nat) (p : Player) (hw : 1 ≤ w) :
    ((∃ sr < g, ∃ seg ∈ lineSegments w (diagDL0 g sr), segOwner board seg = some p) ∨
     (∃ j < g - 1, ∃ seg ∈ lineSegments w (diagDL1 g (g - 2 - j)), segOwner board seg = some p)) ↔
      dlRun board g w p := by
  constructor
  · rintro (⟨sr, hsr, seg, hseg, howner⟩ | ⟨j, hj, seg, hseg, howner⟩)
    · obtain ⟨i, hi, rfl⟩ := (mem_lineSegments w _ seg).mp hseg
      rw [diagDL0_length] at hi
      rw [diagDL0, segmentAt_map_range _ (g - sr) w i hi] at howner
      rw [segOwner_map_range board w _ p hw] at howner
      refine ⟨sr + i, g - w - i, by omega, by omega, fun k hk => ?_⟩
      have := howner k hk
      have e1 : sr + (i + k) = sr + i + k := by omega
      have e2 : g - 1 - (i + k) = w - 1 + (g - w - i) - k := by omega
      rw [e1, e2] at this
      exact this
    · obtain ⟨i, hi, rfl⟩ := (mem_lineSegments w _ seg).mp hseg
      rw [diagDL1_length] at hi
      rw [diagDL1, segmentAt_map_range _ (g - 2 - j + 1) w i hi] at howner
      rw [segOwner_map_range board w _ p hw] at howner
      refine ⟨i, g - 2 - j + 1 - i - w, by omega, by omega, fun k hk => ?_⟩
      have := howner k hk
      have e : g - 2 - j - (i + k) = w - 1 + (g - 2 - j + 1 - i - w) - k := by omega
      rw [e] at this
      exact this
  · rintro ⟨i0, j0, hi0, hj0, hcells⟩
    by_cases hcase : g - 1 ≤ i0 + (w - 1 + j0)
    · left
      refine ⟨i0 + w + j0 - g, by omega, segmentAt (diagDL0 g (i0 + w + j0 - g)) w (g - w - j0),
        (mem_lineSegments w _ _).mpr ⟨g - w - j0, by rw [diagDL0_length]; omega, rfl⟩, ?_⟩
      rw [diagDL0, segmentAt_map_range _ (g - (i0 + w + j0 - g)) w (g - w - j0) (by omega),
        segOwner_map_range board w _ p hw]
      intro k hk
      have := hcells k hk
      have e1 : i0 + w + j0 - g + (g - w - j0 + k) = i0 + k := by omega
      have e2 : g - 1 - (g - w - j0 + k) = w - 1 + j0 - k := by omega
      rw [e1, e2]
      exact this
    · right
      have hg1 : 1 ≤ g := by omega
      refine ⟨g - 2 - (i0 + (w - 1 + j0)), by omega,
        segmentAt (diagDL1 g (g - 2 - (g - 2 - (i0 + (w - 1 + j0))))) w i0,
        (mem_lineSegments w _ _).mpr ⟨i0, by rw [diagDL1_length]; omega, rfl⟩, ?_⟩
      rw [diagDL1, segmentAt_map_range _ (g - 2 - (g - 2 - (i0 + (w - 1 + j0))) + 1) w i0
        (by omega), segOwner_map_range board w _ p hw]
      intro k hk
      have := hcells k hk
      have e : g - 2 - (g - 2 - (i0 + (w - 1 + j0))) - (i0 + k) = w - 1 + j0 - k := by
        omega
      rw [e]
      exact this

/-- Winning windows of the full scan are exactly the runs. -/
theorem exists_seg_allSegments_iff (board : Board) (g w : Nat) (p : Player) (hw : 1 ≤ w) :
    (∃ seg ∈ allSegments g w, segOwner board seg = some p) ↔ hasRun board g w p := by
  unfold hasRun
  constructor
  · rintro ⟨seg, hseg, howner⟩
    obtain ⟨line, hline, hsegline⟩ := List.mem_flatMap.mp hseg
    unfold allLines at hline
    simp only [List.mem_append, List.mem_map, List.mem_range] at hline
    rcases hline with ((((⟨r, hr, rfl⟩ | ⟨c, hc, rfl⟩) | ⟨sr, hsr, rfl⟩) | ⟨j, hj, rfl⟩) |
      ⟨sr, hsr, rfl⟩) | ⟨j, hj, rfl⟩
    · exact Or.inl ((group_row_iff board g w p hw).mp ⟨r, hr, seg, hsegline, howner⟩)
    · exact Or.inr (Or.inl ((group_col_iff board g w p hw).mp ⟨c, hc, seg, hsegline, howner⟩))
    · exact Or.inr (Or.inr (Or.inl ((group_dr_iff board g w p hw).mp
        (Or.inl ⟨sr, hsr, seg, hsegline, howner⟩))))
    · exact Or.inr (Or.inr (Or.inl ((group_dr_iff board g w p hw).mp
        (Or.inr ⟨j, hj, seg, hsegline, howner⟩))))
    · exact Or.inr (Or.inr (Or.inr ((group_dl_iff board g w p hw).mp
        (Or.inl ⟨sr, hsr, seg, hsegline, howner⟩))))
    · exact Or.inr (Or.inr (Or.inr ((group_dl_iff board g w p hw).mp
        (Or.inr ⟨j, hj, seg, hsegline, howner⟩))))
  · have hmem : ∀ line, line ∈ allLines g →
        (∃ seg ∈ lineSegments w line, segOwner board seg = some p) →
        ∃ seg ∈ allSegments g w, segOwner board seg = some p := by
      rintro line hline ⟨seg, hseg, howner⟩
      exact ⟨seg, List.mem_flatMap.mpr ⟨line, hline, hseg⟩, howner⟩
    have hlines : ∀ line,
        ((∃ r < g, line = rowLine g r) ∨ (∃ c < g, line = colLine g c) ∨
         (∃ sr < g, line = diagDR0 g sr) ∨ (∃ j < g - 1, line = diagDR1 g (j + 1)) ∨
         (∃ sr < g, line = diagDL0 g sr) ∨ (∃ j < g - 1, line = diagDL1 g (g - 2 - j))) →
        line ∈ allLines g := by
      intro line h
      unfold allLines
      simp only [List.mem_append, List.mem_map, List.mem_range]
      rcases h with ⟨r, hr, rfl⟩ | ⟨c, hc, rfl⟩ | ⟨sr, hsr, rfl⟩ | ⟨j, hj, rfl⟩ |
        ⟨sr, hsr, rfl⟩ | ⟨j, hj, rfl⟩
      · exact Or.inl (Or.inl (Or.inl (Or.inl (Or.inl ⟨r, hr, rfl⟩))))
      · exact Or.inl (Or.inl (Or.inl (Or.inl (Or.inr ⟨c, hc, rfl⟩))))
      · exact Or.inl (Or.inl (Or.inl (Or.inr ⟨sr, hsr, rfl⟩)))
      · exact Or.inl (Or.inl (Or.inr ⟨j, hj, rfl⟩))
      · exact Or.inl (Or.inr ⟨sr, hsr, rfl⟩)
      · exact Or.inr ⟨j, hj, rfl⟩
    rintro (hrow | hcol | hdr | hdl)
    · obtain ⟨r, hr, seg, hseg, howner⟩ := (group_row_iff board g w p hw).mpr hrow
      exact hmem _ (hlines _ (Or.inl ⟨r, hr, rfl⟩)) ⟨seg, hseg, howner⟩
    · obtain ⟨c, hc, seg, hseg, howner⟩ := (group_col_iff board g w p hw).mpr hcol
      exact hmem _ (hlines _ (Or.inr (Or.inl ⟨c, hc, rfl⟩))) ⟨seg, hseg, howner⟩
    · rcases (group_dr_iff board g w p hw).mpr hdr with ⟨sr, hsr, seg, hseg, howner⟩ |
        ⟨j, hj, seg, hseg, howner⟩
      · exact hmem _ (hlines _ (Or.inr (Or.inr (Or.inl ⟨sr, hsr, rfl⟩)))) ⟨seg, hseg, howner⟩
      · exact hmem _ (hlines _ (Or.inr (Or.inr (Or.inr (Or.inl ⟨j, hj, rfl⟩)))))
          ⟨seg, hseg, howner⟩
    · rcases (group_dl_iff board g w p hw).mpr hdl with ⟨sr, hsr, seg, hseg, howner⟩ |
        ⟨j, hj, seg, hseg, howner⟩
      · exact hmem _ (hlines _ (Or.inr (Or.inr (Or.inr (Or.inr (Or.inl ⟨sr, hsr, rfl⟩))))))
          ⟨seg, hseg, howner⟩
      · exact hmem _ (hlines _ (Or.inr (Or.inr (Or.inr (Or.inr (Or.inr ⟨j, hj, rfl⟩))))))
          ⟨seg, hseg, howner⟩

theorem countP_range_eq_iff (w : Nat) (f : Nat → Bool) :
    ((List.range w).countP f = w) ↔ ∀ k < w, f k = true := by
  constructor
  · intro h
    have h2 : (List.range w).countP f = (List.range w).length := by
      rw [List.length_range]
      exact h
    intro k hk
    exact List.countP_eq_length.mp h2 k (List.mem_range.mpr hk)
  · intro h
    have h2 : (List.range w).countP f = (List.range w).length :=
      List.countP_eq_length.mpr fun a ha => h a (List.mem_range.mp ha)
    rw [List.length_range] at h2
    exact h2

/-- `checkWinForPlayer` is true exactly when a run for the player exists. -/
theorem checkWinForPlayer_iff_hasRun (board : Board) (p : Player) (g w : Nat) (_hw : 1 ≤ w) :
    checkWinForPlayer board p g w = true ↔ hasRun board g w p := by
  unfold checkWinForPlayer hasRun rowRun colRun drRun dlRun
  simp only [Bool.or_eq_true, List.any_eq_true, List.mem_range, decide_eq_true_eq,
    countP_range_eq_iff]
  constructor
  · rintro (((⟨r, hr, c, hc, h⟩ | ⟨c, hc, r, hr, h⟩) | ⟨r, hr, c, hc, h⟩) | ⟨r, hr, j, hj, h⟩)
    · exact Or.inl ⟨r, hr, c, by omega, h⟩
    · exact Or.inr (Or.inl ⟨c, hc, r, by omega, h⟩)
    · exact Or.inr (Or.inr (Or.inl ⟨r, c, by omega, by omega, h⟩))
    · exact Or.inr (Or.inr (Or.inr ⟨r, j, by omega, by omega, h⟩))
  · rintro (⟨r, hr, c, hc, h⟩ | ⟨c, hc, r, hr, h⟩ | ⟨r, c, hr, hc, h⟩ | ⟨r, j, hr, hj, h⟩)
    · exact Or.inl (Or.inl (Or.inl ⟨r, hr, c, by omega, h⟩))
    · exact Or.inl (Or.inl (Or.inr ⟨c, hc, r, by omega, h⟩))
    · exact Or.inl (Or.inr ⟨r, by omega, c, by omega, h⟩)
    · exact Or.inr ⟨r, by omega, j, by omega, h⟩

/-! ## C10 — the two win scanners agree -/

/-- C10.  For boards of the claimed shape, `checkWinner` (`gameLogic.ts`) and
`checkWinForPlayer` (`bot.ts`) agree: `checkWinner` reports a win exactly when
`checkWinForPlayer` accepts some player, and the winner it reports always
satisfies `checkWinForPlayer`. -/
theorem checkWinner_agrees_checkWinForPlayer (board : Board) (g w : Nat)
    (hw : 1 ≤ w) (_hg : w ≤ g) (_hb : board.length = g * g) :
    ((checkWinner board g w).isSome = true ↔
      ∃ p, checkWinForPlayer board p g w = true) ∧
    (∀ pr, checkWinner board g w = some pr → checkWinForPlayer board pr.1 g w = true) := by
  constructor
  · rw [checkWinner_eq_scan, List.findSome?_isSome_iff]
    constructor
    · rintro ⟨seg, hseg, hsome⟩
      obtain ⟨q, hq⟩ := (segWin_isSome_iff board seg).mp hsome
      exact ⟨q, (checkWinForPlayer_iff_hasRun board q g w hw).mpr
        ((exists_seg_allSegments_iff board g w q hw).mp ⟨seg, hseg, hq⟩)⟩
    · rintro ⟨q, hq⟩
      obtain ⟨seg, hseg, howner⟩ := (exists_seg_allSegments_iff board g w q hw).mpr
        ((checkWinForPlayer_iff_hasRun board q g w hw).mp hq)
      exact ⟨seg, hseg, (segWin_isSome_iff board seg).mpr ⟨q, howner⟩⟩
  · intro pr hpr
    rw [checkWinner_eq_scan] at hpr
    obtain ⟨seg, hseg, hwin⟩ := List.exists_of_findSome?_eq_some hpr
    obtain ⟨howner, rfl⟩ := (segWin_eq_some_iff board seg pr).mp hwin
    exact (checkWinForPlayer_iff_hasRun board pr.1 g w hw).mpr
      ((exists_seg_allSegments_iff board g w pr.1 hw).mp ⟨pr.2, hseg, howner⟩)

/-- Witness for C10 at the spec's own example board. -/
theorem checkWinner_agrees_checkWinForPlayer_witness :
    ((1 : Nat) ≤ 3 ∧ (3 : Nat) ≤ 3 ∧
      ([some Player.X, some Player.X, some Player.X, some Player.O, some Player.O,
        none, none, none, none] : Board).length = 3 * 3) ∧
    (((checkWinner [some Player.X, some Player.X, some Player.X, some Player.O,
        some Player.O, none, none, none, none] 3 3).isSome = true ↔
      ∃ p, checkWinForPlayer [some Player.X, some Player.X, some Player.X, some Player.O,
        some Player.O, none, none, none, none] p 3 3 = true) ∧
    (∀ pr, checkWinner [some Player.X, some Player.X, some Player.X, some Player.O,
        some Player.O, none, none, none, none] 3 3 = some pr →
      checkWinForPlayer [some Player.X, some Player.X, some Player.X, some Player.O,
        some Player.O, none, none, none, none] pr.1 3 3 = true)) :=
  ⟨⟨by decide, by decide, by decide⟩,
    checkWinner_agrees_checkWinForPlayer _ 3 3 (by decide) (by decide) (by decide)⟩

/-! ## C1 — `checkWinner` characterisation and scan order -/

/-- C1 (amended).  `checkWinner` is non-null exactly when some horizontal,
vertical or diagonal run of `winLength` same-owner cells exists, and the
returned line is the first winning window of `allSegments` — the scan order
rows, then columns, then down-right diagonals (those starting in column 0 by
ascending start row, then those starting in row 0 by ascending start column),
then down-left diagonals (those starting in the last column by ascending start
row, then those starting in row 0 by descending start column), windows within a
line by ascending offset.  The claim's description of that order — ascending
start index within each diagonal group — does not match the code; see the
counterexample. -/
theorem checkWinner_iff_run_and_first (board : Board) (g w : Nat)
    (hw : 1 ≤ w) (_hg : w ≤ g) (_hb : board.length = g * g) :
    ((checkWinner board g w).isSome = true ↔ ∃ p, hasRun board g w p) ∧
    (∀ pr, checkWinner board g w = some pr →
      ∃ pre post, allSegments g w = pre ++ pr.2 :: post ∧
        segOwner board pr.2 = some pr.1 ∧ ∀ s ∈ pre, segOwner board s = none) := by
  constructor
  · rw [checkWinner_eq_scan, List.findSome?_isSome_iff]
    constructor
    · rintro ⟨seg, hseg, hsome⟩
      obtain ⟨q, hq⟩ := (segWin_isSome_iff board seg).mp hsome
      exact ⟨q, (exists_seg_allSegments_iff board g w q hw).mp ⟨seg, hseg, hq⟩⟩
    · rintro ⟨q, hq⟩
      obtain ⟨seg, hseg, howner⟩ := (exists_seg_allSegments_iff board g w q hw).mpr hq
      exact ⟨seg, hseg, (segWin_isSome_iff board seg).mpr ⟨q, howner⟩⟩
  · intro pr hpr
    rw [checkWinner_eq_scan] at hpr
    obtain ⟨pre, a, post, heq, hwin, hnone⟩ := findSome?_eq_some_first _ _ _ hpr
    obtain ⟨howner, hseg⟩ := (segWin_eq_some_iff board a pr).mp hwin
    subst hseg
    refine ⟨pre, post, heq, howner, fun s hs => ?_⟩
    have := hnone s hs
    unfold segWin at this
    cases h : segOwner board s with
    | none => rfl
    | some q =>
      rw [h] at this
      exact absurd this (by simp)

/-- Witness for C1's amended theorem at the spec's example board. -/
theorem checkWinner_iff_run_and_first_witness :
    ((1 : Nat) ≤ 3 ∧ (3 : Nat) ≤ 3 ∧
      ([some Player.X, some Player.X, some Player.X, some Player.O, some Player.O,
        none, none, none, none] : Board).length = 3 * 3) ∧
    (((checkWinner [some Player.X, some Player.X, some Player.X, some Player.O,
        some Player.O, none, none, none, none] 3 3).isSome = true ↔
      ∃ p, hasRun [some Player.X, some Player.X, some Player.X, some Player.O,
        some Player.O, none, none, none, none] 3 3 p) ∧
    (∀ pr, checkWinner [some Player.X, some Player.X, some Player.X, some Player.O,
        some Player.O, none, none, none, none] 3 3 = some pr →
      ∃ pre post, allSegments 3 3 = pre ++ pr.2 :: post ∧
        segOwner [some Player.X, some Player.X, some Player.X, some Player.O,
          some Player.O, none, none, none, none] pr.2 = some pr.1 ∧
        ∀ s ∈ pre, segOwner [some Player.X, some Player.X, some Player.X, some Player.O,
          some Player.O, none, none, none, none] s = none)) :=
  ⟨⟨by decide, by decide, by decide⟩,
    checkWinner_iff_run_and_first _ 3 3 (by decide) (by decide) (by decide)⟩

/-- Counterexample to C1 as stated.  With `winLength = 2` on `cexBoard` several
runs exist; the first winning window in the claim's order (ascending start
index within each diagonal group) is the down-right diagonal window `[1, 5]`
(start cell 1), but the code scans the column-0 down-right diagonals first and
returns `[3, 7]` (start cell 3), so the returned line is not the first one in
the claim's order. -/
theorem checkWinner_claim_order_cex :
    checkWinner cexBoard 3 2 = some (Player.X, [3, 7]) ∧
    (allSegmentsClaimOrder 3 2).findSome? (segWin cexBoard) = some (Player.X, [1, 5]) ∧
    ((Player.X, [3, 7]) : Player × List Nat) ≠ (Player.X, [1, 5]) := by
  refine ⟨by decide, by decide, by decide⟩

/-! ## C6 — decay: expiry collection and deferred removal -/

theorem foldl_set_getD (ps : List Placement) (b : Board) (i : Nat)
    (h : ∀ p ∈ ps, p.index ≠ i) :
    (ps.foldl (fun b p => b.set p.index (some p.value)) b).getD i none = b.getD i none := by
  induction ps generalizing b with
  | nil => rfl
  | cons p ps ih =>
    rw [List.foldl_cons, ih _ fun q hq => h q (List.mem_cons.mpr (Or.inr hq))]
    rw [List.getD_eq_getElem?_getD, List.getElem?_set_ne (h p (List.mem_cons.mpr (Or.inl rfl))),
      ← List.getD_eq_getElem?_getD]

theorem deriveBoard_getD_none (ps : List Placement) (g i : Nat)
    (h : ∀ p ∈ ps, p.index ≠ i) :
    (deriveBoardFromPlacements ps g).getD i none = none := by
  unfold deriveBoardFromPlacements
  rw [foldl_set_getD ps _ i h]
  rw [List.getD_eq_getElem?_getD]
  cases hlt : (List.replicate (g * g) (none : CellValue))[i]? with
  | none => rfl
  | some v =>
    have hv := List.eq_of_mem_replicate (List.getElem?_mem hlt)
    rw [hv]
    rfl

/-- C6.  One accepted decay move collects into `expiringIndices` exactly the
indices of placements aged at least `decayTurns` (age measured from the turn
number before the increment), while the board used for that same move's
win/draw evaluation still contains every placement, expiring ones included;
once the deferred removal fires, the expired placements are gone from the
placement list, their cells are empty on the derived board, and
`expiringIndices` is cleared. -/
theorem executeDecayMove_spec (g w decayTurns : Nat) (prev : DecayState) (index : Nat)
    (hwinner : prev.winner = none) (hdraw : prev.isDraw = false) :
    (∀ i, i ∈ (executeDecayMove g w decayTurns prev index).expiringIndices ↔
      ∃ p ∈ prev.placements ++ [(⟨index, prev.currentPlayer, prev.turnNumber⟩ : Placement)],
        p.index = i ∧ decayTurns ≤ prev.turnNumber - p.placedTurn) ∧
    (executeDecayMove g w decayTurns prev index).placements =
      prev.placements ++ [(⟨index, prev.currentPlayer, prev.turnNumber⟩ : Placement)] ∧
    (executeDecayMove g w decayTurns prev index).board =
      deriveBoardFromPlacements
        (prev.placements ++ [(⟨index, prev.currentPlayer, prev.turnNumber⟩ : Placement)]) g ∧
    (executeDecayMove g w decayTurns prev index).winner =
      (checkWinner ((executeDecayMove g w decayTurns prev index).board) g w).map Prod.fst ∧
    ((executeDecayMove g w decayTurns prev index).isDraw = true ↔
      (checkWinner ((executeDecayMove g w decayTurns prev index).board) g w = none ∧
        checkDraw ((executeDecayMove g w decayTurns prev index).board) = true)) ∧
    (∀ p, p ∈ (decayRemovalStep g (executeDecayMove g w decayTurns prev index).expiringIndices
        (executeDecayMove g w decayTurns prev index)).placements ↔
      (p ∈ prev.placements ++ [(⟨index, prev.currentPlayer, prev.turnNumber⟩ : Placement)] ∧
        p.index ∉ (executeDecayMove g w decayTurns prev index).expiringIndices)) ∧
    (∀ i ∈ (executeDecayMove g w decayTurns prev index).expiringIndices,
      (decayRemovalStep g (executeDecayMove g w decayTurns prev index).expiringIndices
        (executeDecayMove g w decayTurns prev index)).board.getD i none = none) ∧
    (decayRemovalStep g (executeDecayMove g w decayTurns prev index).expiringIndices
      (executeDecayMove g w decayTurns prev index)).expiringIndices = [] := by
  have hcommon : (executeDecayMove g w decayTurns prev index).placements =
      prev.placements ++ [(⟨index, prev.currentPlayer, prev.turnNumber⟩ : Placement)] ∧
      (executeDecayMove g w decayTurns prev index).expiringIndices =
        ((prev.placements ++ [(⟨index, prev.currentPlayer, prev.turnNumber⟩ : Placement)]).filter
          fun p => decayTurns ≤ prev.turnNumber - p.placedTurn).map Placement.index ∧
      (executeDecayMove g w decayTurns prev index).board =
        deriveBoardFromPlacements
          (prev.placements ++ [(⟨index, prev.currentPlayer, prev.turnNumber⟩ : Placement)]) g := by
    unfold executeDecayMove
    dsimp only
    cases hwin : checkWinner (deriveBoardFromPlacements
        (prev.placements ++ [(⟨index, prev.currentPlayer, prev.turnNumber⟩ : Placement)]) g)
        g w with
    | some pr => exact ⟨rfl, rfl, rfl⟩
    | none =>
      dsimp only
      by_cases hdr : checkDraw (deriveBoardFromPlacements
          (prev.placements ++ [(⟨index, prev.currentPlayer, prev.turnNumber⟩ : Placement)]) g) =
          true
      · rw [if_pos hdr]
        exact ⟨rfl, rfl, rfl⟩
      · rw [if_neg hdr]
        exact ⟨rfl, rfl, rfl⟩
  obtain ⟨hplace, hexp, hboard⟩ := hcommon
  have hwinner2 : (executeDecayMove g w decayTurns prev index).winner =
      (checkWinner ((executeDecayMove g w decayTurns prev index).board) g w).map Prod.fst := by
    rw [hboard]
    unfold executeDecayMove
    dsimp only
    cases hwin : checkWinner (deriveBoardFromPlacements
        (prev.placements ++ [(⟨index, prev.currentPlayer, prev.turnNumber⟩ : Placement)]) g)
        g w with
    | some pr => rfl
    | none =>
      dsimp only
      by_cases hdr : checkDraw (deriveBoardFromPlacements
          (prev.placements ++ [(⟨index, prev.currentPlayer, prev.turnNumber⟩ : Placement)]) g) =
          true
      · rw [if_pos hdr]
        exact hwinner
      · rw [if_neg hdr]
        exact hwinner
  have hdraw2 : ((executeDecayMove g w decayTurns prev index).isDraw = true ↔
      (checkWinner ((executeDecayMove g w decayTurns prev index).board) g w = none ∧
        checkDraw ((executeDecayMove g w decayTurns prev index).board) = true)) := by
    rw [hboard]
    unfold executeDecayMove
    dsimp only
    cases hwin : checkWinner (deriveBoardFromPlacements
        (prev.placements ++ [(⟨index, prev.currentPlayer, prev.turnNumber⟩ : Placement)]) g)
        g w with
    | some pr =>
      show prev.isDraw = true ↔ _
      rw [hdraw]
      simp
    | none =>
      dsimp only
      by_cases hdr : checkDraw (deriveBoardFromPlacements
          (prev.placements ++ [(⟨index, prev.currentPlayer, prev.turnNumber⟩ : Placement)]) g) =
          true
      · rw [if_pos hdr]
        simp [hdr]
      · rw [if_neg hdr]
        show prev.isDraw = true ↔ _
        rw [hdraw]
        simp [hdr]
  have hexpmem : ∀ i, i ∈ (executeDecayMove g w decayTurns prev index).expiringIndices ↔
      ∃ p ∈ prev.placements ++ [(⟨index, prev.currentPlayer, prev.turnNumber⟩ : Placement)],
        p.index = i ∧ decayTurns ≤ prev.turnNumber - p.placedTurn := by
    intro i
    rw [hexp]
    simp only [List.mem_map, List.mem_filter, decide_eq_true_eq]
    constructor
    · rintro ⟨p, ⟨hp, hage⟩, rfl⟩
      exact ⟨p, hp, rfl, hage⟩
    · rintro ⟨p, hp, rfl, hage⟩
      exact ⟨p, ⟨hp, hage⟩, rfl⟩
  refine ⟨hexpmem, hplace, hboard, hwinner2, hdraw2, ?_, ?_, rfl⟩
  · intro p
    show p ∈ (executeDecayMove g w decayTurns prev index).placements.filter
      (fun q => decide (q.index ∉ (executeDecayMove g w decayTurns prev index).expiringIndices)) ↔ _
    rw [List.mem_filter, hplace, decide_eq_true_eq]
  · intro i hi
    show (deriveBoardFromPlacements
      ((executeDecayMove g w decayTurns prev index).placements.filter fun q =>
        decide (q.index ∉ (executeDecayMove g w decayTurns prev index).expiringIndices)) g).getD
        i none = none
    apply deriveBoard_getD_none
    intro p hp
    rw [List.mem_filter, decide_eq_true_eq] at hp
    intro hpi
    exact hp.2 (hpi ▸ hi)

/-- Witness for C6 with `decayTurns = 1`: the turn-1 placement on cell 0 has
age 1 and expires on this move while the new placement does not. -/
theorem executeDecayMove_spec_witness :
    (c6Prev.winner = none ∧ c6Prev.isDraw = false) ∧
    ((∀ i, i ∈ (executeDecayMove 3 3 1 c6Prev 1).expiringIndices ↔
      ∃ p ∈ c6Prev.placements ++ [(⟨1, c6Prev.currentPlayer, c6Prev.turnNumber⟩ : Placement)],
        p.index = i ∧ 1 ≤ c6Prev.turnNumber - p.placedTurn) ∧
    (executeDecayMove 3 3 1 c6Prev 1).placements =
      c6Prev.placements ++ [(⟨1, c6Prev.currentPlayer, c6Prev.turnNumber⟩ : Placement)] ∧
    (executeDecayMove 3 3 1 c6Prev 1).board =
      deriveBoardFromPlacements
        (c6Prev.placements ++ [(⟨1, c6Prev.currentPlayer, c6Prev.turnNumber⟩ : Placement)]) 3 ∧
    (executeDecayMove 3 3 1 c6Prev 1).winner =
      (checkWinner ((executeDecayMove 3 3 1 c6Prev 1).board) 3 3).map Prod.fst ∧
    ((executeDecayMove 3 3 1 c6Prev 1).isDraw = true ↔
      (checkWinner ((executeDecayMove 3 3 1 c6Prev 1).board) 3 3 = none ∧
        checkDraw ((executeDecayMove 3 3 1 c6Prev 1).board) = true)) ∧
    (∀ p, p ∈ (decayRemovalStep 3 (executeDecayMove 3 3 1 c6Prev 1).expiringIndices
        (executeDecayMove 3 3 1 c6Prev 1)).placements ↔
      (p ∈ c6Prev.placements ++ [(⟨1, c6Prev.currentPlayer, c6Prev.turnNumber⟩ : Placement)] ∧
        p.index ∉ (executeDecayMove 3 3 1 c6Prev 1).expiringIndices)) ∧
    (∀ i ∈ (executeDecayMove 3 3 1 c6Prev 1).expiringIndices,
      (decayRemovalStep 3 (executeDecayMove 3 3 1 c6Prev 1).expiringIndices
        (executeDecayMove 3 3 1 c6Prev 1)).board.getD i none = none) ∧
    (decayRemovalStep 3 (executeDecayMove 3 3 1 c6Prev 1).expiringIndices
      (executeDecayMove 3 3 1 c6Prev 1)).expiringIndices = []) :=
  ⟨⟨rfl, rfl⟩, executeDecayMove_spec 3 3 1 c6Prev 1 rfl rfl⟩

/-! ## C7 — the classic bot's priority cascade -/

theorem randPick_mem (l : List Nat) (r : Nat) (h : l ≠ []) : randPick l r ∈ l := by
  unfold randPick
  have hlen : 0 < l.length := List.length_pos.mpr h
  have hlt : r % l.length < l.length := Nat.mod_lt r hlen
  rw [List.getD_eq_getElem _ _ hlt]
  exact List.getElem_mem hlt

theorem findWinningMove_spec (board : Board) (p : Player) (g w : Nat) :
    (∀ i, findWinningMove board p g w = some i → i < board.length ∧ winsAt board p g w i) ∧
    (findWinningMove board p g w = none ↔ ∀ i < board.length, ¬ winsAt board p g w i) := by
  constructor
  · intro i h
    obtain ⟨a, ha, hfa⟩ := List.exists_of_findSome?_eq_some h
    rw [List.mem_range] at ha
    by_cases he : board.getD a none = none
    · rw [if_pos he] at hfa
      by_cases hwin : checkWinForPlayer (board.set a (some p)) p g w = true
      · rw [if_pos hwin] at hfa
        obtain rfl : a = i := by simpa using hfa
        exact ⟨ha, he, hwin⟩
      · rw [if_neg hwin] at hfa
        exact absurd hfa (by simp)
    · rw [if_neg he] at hfa
      exact absurd hfa (by simp)
  · unfold findWinningMove
    rw [List.findSome?_eq_none_iff]
    constructor
    · intro h i hi ⟨he, hwin⟩
      have := h i (List.mem_range.mpr hi)
      rw [if_pos he, if_pos hwin] at this
      exact absurd this (by simp)
    · intro h i hi
      rw [List.mem_range] at hi
      by_cases he : board.getD i none = none
      · rw [if_pos he]
        by_cases hwin : checkWinForPlayer (board.set i (some p)) p g w = true
        · exact absurd ⟨he, hwin⟩ (h i hi)
        · rw [if_neg hwin]
      · rw [if_neg he]

/-- C7.  For normal and hard difficulty with at least one empty cell,
`getBotMove` always answers with an empty cell, and follows the cascade: an
immediate bot win when one exists; otherwise a block of an immediate human win;
otherwise (hard, 3×3, bot center, opposite human corners) the first free edge;
otherwise the free center (3×3); otherwise a free corner (3×3); otherwise some
empty cell.  The parameter `r` ranges over every random draw the source can
make. -/
theorem getBotMove_cascade (board : Board) (d : BotDifficulty) (g w r : Nat)
    (hd : d = BotDifficulty.normal ∨ d = BotDifficulty.hard)
    (hne : ∃ i < board.length, board.getD i none = none) :
    (∃ j, getBotMove board d g w r = some j ∧ board.getD j none = none) ∧
    ((∃ i < board.length, winsAt board Player.O g w i) →
      ∃ j, getBotMove board d g w r = some j ∧ winsAt board Player.O g w j) ∧
    ((∀ i < board.length, ¬ winsAt board Player.O g w i) →
      (∃ i < board.length, winsAt board Player.X g w i) →
      ∃ j, getBotMove board d g w r = some j ∧ winsAt board Player.X g w j) ∧
    ((∀ i < board.length, ¬ winsAt board Player.O g w i) →
      (∀ i < board.length, ¬ winsAt board Player.X g w i) →
      d = BotDifficulty.hard → g = 3 → board.getD 4 none = some Player.O →
      ((board.getD 0 none = some Player.X ∧ board.getD 8 none = some Player.X) ∨
       (board.getD 2 none = some Player.X ∧ board.getD 6 none = some Player.X)) →
      ∀ e, ([1, 3, 5, 7] : List Nat).find? (fun i => board.getD i none = none) = some e →
      getBotMove board d g w r = some e) ∧
    ((∀ i < board.length, ¬ winsAt board Player.O g w i) →
      (∀ i < board.length, ¬ winsAt board Player.X g w i) →
      antiForkMove board d g = none → g = 3 → board.getD 4 none = none →
      getBotMove board d g w r = some 4) ∧
    ((∀ i < board.length, ¬ winsAt board Player.O g w i) →
      (∀ i < board.length, ¬ winsAt board Player.X g w i) →
      antiForkMove board d g = none → ¬(g = 3 ∧ board.getD 4 none = none) →
      freeCorners board g ≠ [] →
      ∃ j, getBotMove board d g w r = some j ∧ j ∈ freeCorners board g) ∧
    ((∀ i < board.length, ¬ winsAt board Player.O g w i) →
      (∀ i < board.length, ¬ winsAt board Player.X g w i) →
      antiForkMove board d g = none → ¬(g = 3 ∧ board.getD 4 none = none) →
      freeCorners board g = [] →
      ∃ j, getBotMove board d g w r = some j ∧ j ∈ emptyCellsOf board) := by
  obtain ⟨i0, hi0, he0⟩ := hne
  have hmem0 : i0 ∈ emptyCellsOf board := by
    unfold emptyCellsOf
    rw [List.mem_filter, List.mem_range]
    exact ⟨hi0, decide_eq_true he0⟩
  have hnonempty : (emptyCellsOf board).isEmpty = false := by
    rcases h : (emptyCellsOf board).isEmpty with _ | _
    · rfl
    · rw [List.isEmpty_iff] at h
      rw [h] at hmem0
      exact absurd hmem0 (by simp)
  have hnoteasy : d ≠ BotDifficulty.easy := by
    rcases hd with rfl | rfl <;> simp
  have hmain : getBotMove board d g w r =
      (match findWinningMove board Player.O g w with
      | some i => some i
      | none =>
        match findWinningMove board Player.X g w with
        | some i => some i
        | none =>
          match antiForkMove board d g with
          | some e => some e
          | none =>
            if g = 3 ∧ board.getD 4 none = none then some 4
            else
              if ¬ (freeCorners board g).isEmpty then some (randPick (freeCorners board g) r)
              else some (randPick (emptyCellsOf board) r)) := by
    unfold getBotMove
    dsimp only
    rw [hnonempty]
    simp only [Bool.false_eq_true, if_false, if_neg hnoteasy]
  have hemptyOf : ∀ j, j ∈ emptyCellsOf board → board.getD j none = none := by
    intro j hj
    unfold emptyCellsOf at hj
    rw [List.mem_filter] at hj
    exact of_decide_eq_true hj.2
  have hcornersFree : ∀ j, j ∈ freeCorners board g → board.getD j none = none := by
    intro j hj
    unfold freeCorners at hj
    by_cases hg : g = 3
    · rw [if_pos hg] at hj
      rw [List.mem_filter] at hj
      exact of_decide_eq_true hj.2
    · rw [if_neg hg] at hj
      exact absurd hj (by simp)
  have hFWspecO := findWinningMove_spec board Player.O g w
  have hFWspecX := findWinningMove_spec board Player.X g w
  have hantiFree : ∀ e, antiForkMove board d g = some e → board.getD e none = none := by
    intro e he
    unfold antiForkMove at he
    by_cases h1 : d = BotDifficulty.hard ∧ g = 3
    · rw [if_pos h1] at he
      by_cases h2 : board.getD 4 none = some Player.O ∧
          ((board.getD 0 none = some Player.X ∧ board.getD 8 none = some Player.X) ∨
           (board.getD 2 none = some Player.X ∧ board.getD 6 none = some Player.X))
      · rw [if_pos h2] at he
        have hpe := List.find?_some he
        simpa using hpe
      · rw [if_neg h2] at he
        exact absurd he (by simp)
    · rw [if_neg h1] at he
      exact absurd he (by simp)
  refine ⟨?_, ?_, ?_, ?_, ?_, ?_, ?_⟩
  · -- always an empty cell
    rw [hmain]
    cases hO : findWinningMove board Player.O g w with
    | some i => exact ⟨i, rfl, (hFWspecO.1 i hO).2.1⟩
    | none =>
      cases hX : findWinningMove board Player.X g w with
      | some i => exact ⟨i, rfl, (hFWspecX.1 i hX).2.1⟩
      | none =>
        cases hA : antiForkMove board d g with
        | some e => exact ⟨e, rfl, hantiFree e hA⟩
        | none =>
          by_cases hc : g = 3 ∧ board.getD 4 none = none
          · rw [if_pos hc]
            exact ⟨4, rfl, hc.2⟩
          · rw [if_neg hc]
            by_cases hcor : (freeCorners board g).isEmpty = true
            · rw [if_neg (by simp [hcor])]
              refine ⟨randPick (emptyCellsOf board) r, rfl, hemptyOf _ (randPick_mem _ _ ?_)⟩
              intro hnil
              rw [hnil] at hmem0
              exact absurd hmem0 (by simp)
            · rw [if_pos (by simp [hcor])]
              refine ⟨randPick (freeCorners board g) r, rfl, hcornersFree _ (randPick_mem _ _ ?_)⟩
              intro hnil
              rw [hnil] at hcor
              exact hcor rfl
  · -- step 1: win
    intro hW
    rw [hmain]
    cases hO : findWinningMove board Player.O g w with
    | some i => exact ⟨i, rfl, (hFWspecO.1 i hO).2⟩
    | none =>
      obtain ⟨i, hi, hwin⟩ := hW
      exact absurd hwin (hFWspecO.2.mp hO i hi)
  · -- step 2: block
    intro hnoO hX2
    rw [hmain]
    rw [hFWspecO.2.mpr hnoO]
    cases hX : findWinningMove board Player.X g w with
    | some i => exact ⟨i, rfl, (hFWspecX.1 i hX).2⟩
    | none =>
      obtain ⟨i, hi, hwin⟩ := hX2
      exact absurd hwin (hFWspecX.2.mp hX i hi)
  · -- step 3: anti-fork edge
    intro hnoO hnoX hhard hg3 hcenter hcorners e hedge
    rw [hmain, hFWspecO.2.mpr hnoO, hFWspecX.2.mpr hnoX]
    have hA : antiForkMove board d g = some e := by
      unfold antiForkMove
      rw [if_pos ⟨hhard, hg3⟩, if_pos ⟨hcenter, hcorners⟩]
      exact hedge
    rw [hA]
  · -- step 4: center
    intro hnoO hnoX hA hg3 hcenter
    rw [hmain, hFWspecO.2.mpr hnoO, hFWspecX.2.mpr hnoX, hA, if_pos ⟨hg3, hcenter⟩]
  · -- step 5: corner
    intro hnoO hnoX hA hnc hcor
    rw [hmain, hFWspecO.2.mpr hnoO, hFWspecX.2.mpr hnoX, hA, if_neg hnc]
    have : (freeCorners board g).isEmpty = false := by
      rcases h : (freeCorners board g).isEmpty with _ | _
      · rfl
      · exact absurd (List.isEmpty_iff.mp h) hcor
    rw [if_pos (by simp [this])]
    exact ⟨randPick (freeCorners board g) r, rfl, randPick_mem _ _ hcor⟩
  · -- step 6: fallback
    intro hnoO hnoX hA hnc hcor
    rw [hmain, hFWspecO.2.mpr hnoO, hFWspecX.2.mpr hnoX, hA, if_neg hnc]
    rw [if_neg (by simp [hcor])]
    refine ⟨randPick (emptyCellsOf board) r, rfl, randPick_mem _ _ ?_⟩
    intro hnil
    rw [hnil] at hmem0
    exact absurd hmem0 (by simp)

/-- Witness for C7 at `c7Board` with normal difficulty. -/
theorem getBotMove_cascade_witness :
    ((BotDifficulty.normal = BotDifficulty.normal ∨
        BotDifficulty.normal = BotDifficulty.hard) ∧
      (∃ i < c7Board.length, c7Board.getD i none = none)) ∧
    ((∃ j, getBotMove c7Board BotDifficulty.normal 3 3 0 = some j ∧
        c7Board.getD j none = none) ∧
    ((∃ i < c7Board.length, winsAt c7Board Player.O 3 3 i) →
      ∃ j, getBotMove c7Board BotDifficulty.normal 3 3 0 = some j ∧
        winsAt c7Board Player.O 3 3 j) ∧
    ((∀ i < c7Board.length, ¬ winsAt c7Board Player.O 3 3 i) →
      (∃ i < c7Board.length, winsAt c7Board Player.X 3 3 i) →
      ∃ j, getBotMove c7Board BotDifficulty.normal 3 3 0 = some j ∧
        winsAt c7Board Player.X 3 3 j) ∧
    ((∀ i < c7Board.length, ¬ winsAt c7Board Player.O 3 3 i) →
      (∀ i < c7Board.length, ¬ winsAt c7Board Player.X 3 3 i) →
      BotDifficulty.normal = BotDifficulty.hard → 3 = 3 →
      c7Board.getD 4 none = some Player.O →
      ((c7Board.getD 0 none = some Player.X ∧ c7Board.getD 8 none = some Player.X) ∨
       (c7Board.getD 2 none = some Player.X ∧ c7Board.getD 6 none = some Player.X)) →
      ∀ e, ([1, 3, 5, 7] : List Nat).find? (fun i => c7Board.getD i none = none) = some e →
      getBotMove c7Board BotDifficulty.normal 3 3 0 = some e) ∧
    ((∀ i < c7Board.length, ¬ winsAt c7Board Player.O 3 3 i) →
      (∀ i < c7Board.length, ¬ winsAt c7Board Player.X 3 3 i) →
      antiForkMove c7Board BotDifficulty.normal 3 = none → 3 = 3 →
      c7Board.getD 4 none = none →
      getBotMove c7Board BotDifficulty.normal 3 3 0 = some 4) ∧
    ((∀ i < c7Board.length, ¬ winsAt c7Board Player.O 3 3 i) →
      (∀ i < c7Board.length, ¬ winsAt c7Board Player.X 3 3 i) →
      antiForkMove c7Board BotDifficulty.normal 3 = none →
      ¬(3 = 3 ∧ c7Board.getD 4 none = none) →
      freeCorners c7Board 3 ≠ [] →
      ∃ j, getBotMove c7Board BotDifficulty.normal 3 3 0 = some j ∧
        j ∈ freeCorners c7Board 3) ∧
    ((∀ i < c7Board.length, ¬ winsAt c7Board Player.O 3 3 i) →
      (∀ i < c7Board.length, ¬ winsAt c7Board Player.X 3 3 i) →
      antiForkMove c7Board BotDifficulty.normal 3 = none →
      ¬(3 = 3 ∧ c7Board.getD 4 none = none) →
      freeCorners c7Board 3 = [] →
      ∃ j, getBotMove c7Board BotDifficulty.normal 3 3 0 = some j ∧
        j ∈ emptyCellsOf c7Board)) :=
  ⟨⟨Or.inl rfl, by decide⟩,
    getBotMove_cascade c7Board BotDifficulty.normal 3 3 0 (Or.inl rfl) (by decide)⟩

/-! ## Correctness layer for the hard circles bot (C2, C8)

The central invariant: every value the search computes or memoizes for a
state key equals `1000 - ply` when the key's board is already won by `O`, and
is at most `999 - ply` otherwise — where `ply` is determined by the key's
inventories, because every move consumes exactly one inventory piece.  The
memo's keys carry the inventories, so a value can never be reused at a
different ply, and the alpha-beta bounds stored after a cutoff still respect
these inequalities (they are minima/maxima over subsets of child values). -/

theorem memoOK_nil (g w M : Nat) : memoOK g w M [] := by
  intro kv hkv
  exact absurd hkv (by simp)

theorem memoOK_insert (g w M : Nat) (memo : Memo) (k : MemoKey) (v : Int)
    (h : memoOK g w M memo) (hkv : phi g w M k v) : memoOK g w M (memoInsert memo k v) := by
  intro kv hmem
  rcases List.mem_cons.mp hmem with rfl | hmem
  · exact hkv
  · exact h kv hmem

theorem memoFind_mem (memo : Memo) (k : MemoKey) (v : Int)
    (h : memoFind memo k = some v) : (k, v) ∈ memo := by
  obtain ⟨e, he, hfe⟩ := List.exists_of_findSome?_eq_some h
  by_cases hk : e.1 = k
  · rw [if_pos hk] at hfe
    obtain rfl : e.2 = v := by simpa using hfe
    rw [← hk]
    exact he
  · rw [if_neg hk] at hfe
    exact absurd hfe (by simp)

theorem keyBoard_keyOf (p : Player) (iX iO : CircleInventory) (s : CellStacks) :
    keyBoard (keyOf p iX iO s) = getTopOwnerBoard s := by
  unfold keyBoard keyOf stacksKeyOf getTopOwnerBoard
  rw [List.map_map]
  apply List.map_congr_left
  intro stack hstack
  show ((stack.map fun c => (c.owner, c.size)).getLast?).map Prod.fst = _
  rw [List.getLast?_map]
  cases stack.getLast? <;> rfl

theorem keyTot_keyOf (p : Player) (iX iO : CircleInventory) (s : CellStacks) :
    keyTot (keyOf p iX iO s) = invTotal iX + invTotal iO := rfl

theorem invTotal_decInv (inv : CircleInventory) (z : Nat) (h : 0 < invForSize inv z) :
    invTotal (decInv inv z) + 1 = invTotal inv := by
  unfold invForSize at h
  unfold decInv invTotal
  by_cases h1 : z = 1
  · rw [if_pos h1] at h
    rw [if_pos h1]
    dsimp only
    omega
  · rw [if_neg h1] at h
    rw [if_neg h1]
    by_cases h2 : z = 2
    · rw [if_pos h2] at h
      rw [if_pos h2]
      dsimp only
      omega
    · rw [if_neg h2] at h
      rw [if_neg h2]
      dsimp only
      omega

theorem invTotal_pos_of_invForSize (inv : CircleInventory) (z : Nat)
    (h : 0 < invForSize inv z) : 0 < invTotal inv := by
  unfold invForSize at h
  unfold invTotal
  by_cases h1 : z = 1
  · rw [if_pos h1] at h
    omega
  · by_cases h2 : z = 2
    · rw [if_neg h1, if_pos h2] at h
      omega
    · rw [if_neg h1, if_neg h2] at h
      omega

theorem mem_getValidCircleMoves (s : CellStacks) (inv : CircleInventory) (m : CircleMove)
    (h : m ∈ getValidCircleMoves s inv) :
    0 < invForSize inv m.size ∧ isValidCirclePlacement s m.cellIndex m.size = true ∧
      m.cellIndex < s.length := by
  unfold getValidCircleMoves at h
  obtain ⟨z, hz, hm⟩ := List.mem_flatMap.mp h
  by_cases hpos : invForSize inv z ≤ 0
  · rw [if_pos hpos] at hm
    exact absurd hm (by simp)
  · rw [if_neg hpos] at hm
    obtain ⟨i, hi, hfi⟩ := List.mem_filterMap.mp hm
    rw [List.mem_range] at hi
    by_cases hv : isValidCirclePlacement s i z = true
    · rw [if_pos hv] at hfi
      obtain rfl : (⟨i, z⟩ : CircleMove) = m := by simpa using hfi
      exact ⟨show 0 < invForSize inv z by omega, hv, hi⟩
    · rw [if_neg hv] at hfi
      exact absurd hfi (by simp)

theorem mem_insertByCapDesc (x y : SimItem) (l : List SimItem) :
    x ∈ insertByCapDesc y l ↔ x = y ∨ x ∈ l := by
  induction l with
  | nil => simp [insertByCapDesc]
  | cons z zs ih =>
    unfold insertByCapDesc
    by_cases h : z.capturedSize ≤ y.capturedSize
    · rw [if_pos h]
      simp
    · rw [if_neg h]
      rw [List.mem_cons, ih, List.mem_cons]
      tauto

theorem mem_sortByCapDesc (x : SimItem) (l : List SimItem) :
    x ∈ sortByCapDesc l ↔ x ∈ l := by
  unfold sortByCapDesc
  induction l with
  | nil => simp
  | cons y ys ih =>
    rw [List.foldr_cons, mem_insertByCapDesc, ih, List.mem_cons]

theorem sortByCapDesc_ne_nil (l : List SimItem) (h : l ≠ []) : sortByCapDesc l ≠ [] := by
  intro hnil
  obtain ⟨x, hx⟩ := List.exists_mem_of_ne_nil l h
  have := (mem_sortByCapDesc x l).mpr hx
  rw [hnil] at this
  exact absurd this (by simp)

/-- The alpha-beta loop keeps the memo invariant, and its result stays within
the bounds satisfied by every child value — pruning only shrinks the set of
children the minimum/maximum ranges over, so the stored bound still obeys the
same inequalities. -/
theorem abLoop_phi (g w M : Nat) (B : Int) (hB : B ≤ 999)
    (f : SimItem → Int → Int → Memo → Int × Memo) (isMax : Bool) :
    ∀ (l : List SimItem) (best alpha beta : Int) (memo : Memo),
      (∀ item ∈ l, ∀ a b mm, memoOK g w M mm →
        memoOK g w M (f item a b mm).2 ∧ -999 ≤ (f item a b mm).1 ∧
          (f item a b mm).1 ≤ B) →
      memoOK g w M memo →
      (best = (if isMax then negInf else posInf) ∨ (-999 ≤ best ∧ best ≤ B)) →
      memoOK g w M (abLoop f isMax l best alpha beta memo).2 ∧
      (l = [] → (abLoop f isMax l best alpha beta memo).1 = best) ∧
      (l ≠ [] → -999 ≤ (abLoop f isMax l best alpha beta memo).1 ∧
        (abLoop f isMax l best alpha beta memo).1 ≤ B) := by
  intro l
  induction l with
  | nil =>
    intro best alpha beta memo _ hmemo _
    exact ⟨hmemo, fun _ => rfl, fun h => absurd rfl h⟩
  | cons item rest ih =>
    intro best alpha beta memo hf hmemo hinit
    obtain ⟨hm1, hs1, hs2⟩ := hf item (List.mem_cons.mpr (Or.inl rfl)) alpha beta memo hmemo
    have hfrest : ∀ it ∈ rest, ∀ a b mm, memoOK g w M mm →
        memoOK g w M (f it a b mm).2 ∧ -999 ≤ (f it a b mm).1 ∧ (f it a b mm).1 ≤ B :=
      fun it hit => hf it (List.mem_cons.mpr (Or.inr hit))
    cases isMax with
    | true =>
      have hstep : abLoop f true (item :: rest) best alpha beta memo =
          (let r := f item alpha beta memo
           let score := r.1
           let best1 := if best < score then score else best
           let alpha1 := if alpha < best1 then best1 else alpha
           if beta ≤ alpha1 then (best1, r.2)
           else abLoop f true rest best1 alpha1 beta r.2) := by
        rfl
      rw [hstep]
      dsimp only
      set score := (f item alpha beta memo).1 with hscoreDef
      set memo1 := (f item alpha beta memo).2 with hmemo1Def
      set best1 := (if best < score then score else best : Int) with hbest1Def
      set alpha1 := (if alpha < best1 then best1 else alpha : Int) with halpha1Def
      have hbest1 : -999 ≤ best1 ∧ best1 ≤ B := by
        rw [hbest1Def]
        rcases hinit with rfl | ⟨h1, h2⟩
        · have hlt : (if true = true then negInf else posInf) < score := by
            show negInf < score
            unfold negInf
            omega
          rw [if_pos hlt]
          exact ⟨hs1, hs2⟩
        · by_cases hlt : best < score
          · rw [if_pos hlt]
            exact ⟨hs1, hs2⟩
          · rw [if_neg hlt]
            exact ⟨h1, h2⟩
      by_cases hprune : beta ≤ alpha1
      · rw [if_pos hprune]
        exact ⟨hm1, by simp, fun _ => hbest1⟩
      · rw [if_neg hprune]
        have hres := ih best1 alpha1 beta memo1 hfrest hm1 (Or.inr hbest1)
        refine ⟨hres.1, by simp, fun _ => ?_⟩
        rcases eq_or_ne rest [] with hrest | hrest
        · rw [hres.2.1 hrest]
          exact hbest1
        · exact hres.2.2 hrest
    | false =>
      have hstep : abLoop f false (item :: rest) best alpha beta memo =
          (let r := f item alpha beta memo
           let score := r.1
           let best1 := if score < best then score else best
           let beta1 := if best1 < beta then best1 else beta
           if beta1 ≤ alpha then (best1, r.2)
           else abLoop f false rest best1 alpha beta1 r.2) := by
        rfl
      rw [hstep]
      dsimp only
      set score := (f item alpha beta memo).1 with hscoreDef
      set memo1 := (f item alpha beta memo).2 with hmemo1Def
      set best1 := (if score < best then score else best : Int) with hbest1Def
      set beta1 := (if best1 < beta then best1 else beta : Int) with hbeta1Def
      have hbest1 : -999 ≤ best1 ∧ best1 ≤ B := by
        rw [hbest1Def]
        rcases hinit with rfl | ⟨h1, h2⟩
        · have hlt : score < (if false = true then negInf else posInf) := by
            show score < posInf
            unfold posInf
            omega
          rw [if_pos hlt]
          exact ⟨hs1, hs2⟩
        · by_cases hlt : score < best
          · rw [if_pos hlt]
            exact ⟨hs1, hs2⟩
          · rw [if_neg hlt]
            exact ⟨h1, h2⟩
      by_cases hprune : beta1 ≤ alpha
      · rw [if_pos hprune]
        exact ⟨hm1, by simp, fun _ => hbest1⟩
      · rw [if_neg hprune]
        have hres := ih best1 alpha beta1 memo1 hfrest hm1 (Or.inr hbest1)
        refine ⟨hres.1, by simp, fun _ => ?_⟩
        rcases eq_or_ne rest [] with hrest | hrest
        · rw [hres.2.1 hrest]
          exact hbest1
        · exact hres.2.2 hrest

/-- The search invariant holds for every `minimax` call with enough fuel: the
returned value satisfies `phi` at the node's key and the memo invariant is
preserved, for any alpha-beta window. -/
theorem minimax_phi (g w M : Nat) (hM : M ≤ 999) :
    ∀ (fuel : Nat) (cs : CellStacks) (invX invO : CircleInventory) (player : Player)
      (ply : Nat) (alpha beta : Int) (memo : Memo),
      invTotal invX + invTotal invO + ply = M → 1 ≤ ply →
      invTotal invX + invTotal invO < fuel →
      memoOK g w M memo →
      memoOK g w M (minimax fuel g w none cs invX invO player ply alpha beta memo).2 ∧
      phi g w M (keyOf player invX invO cs)
        (minimax fuel g w none cs invX invO player ply alpha beta memo).1 := by
  intro fuel
  induction fuel with
  | zero =>
    intro cs invX invO player ply alpha beta memo hsum hply hfuel hmemo
    omega
  | succ n ih =>
    intro cs invX invO player ply alpha beta memo hsum hply hfuel hmemo
    have hkeyTot : keyTot (keyOf player invX invO cs) =
        invTotal invX + invTotal invO := rfl
    have hplyEq : (M - keyTot (keyOf player invX invO cs)) = ply := by
      rw [hkeyTot]
      omega
    unfold minimax
    dsimp only
    cases hfind : memoFind memo (keyOf player invX invO cs) with
    | some v =>
      exact ⟨hmemo, hmemo _ (memoFind_mem memo _ v hfind)⟩
    | none =>
      cases hwin : checkWinner (getTopOwnerBoard cs) g w with
      | some pr =>
        have hkw : keyWinner g w (keyOf player invX invO cs) = some pr.1 := by
          unfold keyWinner
          rw [keyBoard_keyOf, hwin]
          rfl
        have hphi : phi g w M (keyOf player invX invO cs) (terminalScore pr.1 ply) := by
          refine ⟨by omega, ?_, ?_, ?_⟩
          · unfold terminalScore
            by_cases hO : pr.1 = Player.O
            · rw [if_pos hO]
              omega
            · rw [if_neg hO]
              omega
          · intro hOwin
            rw [hkw] at hOwin
            have hO : pr.1 = Player.O := by simpa using hOwin
            unfold terminalScore
            rw [if_pos hO, hplyEq]
          · intro hnotO
            rw [hkw] at hnotO
            have hO : pr.1 ≠ Player.O := by simpa using hnotO
            unfold terminalScore
            rw [if_neg hO, hplyEq]
            omega
        exact ⟨memoOK_insert g w M memo _ _ hmemo hphi, hphi⟩
      | none =>
        have hkw : keyWinner g w (keyOf player invX invO cs) = none := by
          unfold keyWinner
          rw [keyBoard_keyOf, hwin]
          rfl
        rw [if_neg (show ¬ depthReached none ply = true by unfold depthReached; simp)]
        cases hmoves : (getValidCircleMoves cs
            (if player = Player.X then invX else invO)).isEmpty with
        | true =>
          have hphi : phi g w M (keyOf player invX invO cs) 0 := by
            refine ⟨by omega, by omega, ?_, ?_⟩
            · intro hOwin
              rw [hkw] at hOwin
              exact absurd hOwin (by simp)
            · intro _
              rw [hplyEq]
              omega
          exact ⟨memoOK_insert g w M memo _ _ hmemo hphi, hphi⟩
        | false =>
          set inv := (if player = Player.X then invX else invO : CircleInventory)
            with hinvDef
          set moves := getValidCircleMoves cs inv with hmovesDef
          set ordered := sortByCapDesc (moves.map fun m => simItem cs inv m player)
            with horderedDef
          have hfchild : ∀ item ∈ ordered, ∀ a b mm, memoOK g w M mm →
              memoOK g w M ((minimax n g w none item.newStacks
                (if player = Player.X then item.newInventory else invX)
                (if player = Player.X then invO else item.newInventory)
                (otherPlayer player) (ply + 1) a b mm)).2 ∧
              (-999 : Int) ≤ ((minimax n g w none item.newStacks
                (if player = Player.X then item.newInventory else invX)
                (if player = Player.X then invO else item.newInventory)
                (otherPlayer player) (ply + 1) a b mm)).1 ∧
              ((minimax n g w none item.newStacks
                (if player = Player.X then item.newInventory else invX)
                (if player = Player.X then invO else item.newInventory)
                (otherPlayer player) (ply + 1) a b mm)).1 ≤ 999 - (ply : Int) := by
            intro item hitem a b mm hmm
            rw [horderedDef, mem_sortByCapDesc] at hitem
            obtain ⟨m, hm, rfl⟩ := List.mem_map.mp hitem
            have hmove := mem_getValidCircleMoves cs inv m (hmovesDef ▸ hm)
            have hdec : invTotal (decInv inv m.size) + 1 = invTotal inv :=
              invTotal_decInv inv m.size hmove.1
            have hpos : 0 < invTotal inv := invTotal_pos_of_invForSize inv m.size hmove.1
            have hnewInv : (simItem cs inv m player).newInventory = decInv inv m.size := rfl
            have htot : invTotal (if player = Player.X then
                  (simItem cs inv m player).newInventory else invX) +
                invTotal (if player = Player.X then invO else
                  (simItem cs inv m player).newInventory) + 1 =
                invTotal invX + invTotal invO := by
              cases hpl : player with
              | X =>
                have hinv2 : inv = invX := by rw [hinvDef, if_pos hpl]
                rw [hinv2] at hdec
                rw [if_pos (rfl : Player.X = Player.X), if_pos (rfl : Player.X = Player.X),
                  hinv2]
                show invTotal (decInv invX m.size) + invTotal invO + 1 = _
                omega
              | O =>
                have hne : ¬ (Player.O = Player.X) := by simp
                have hinv2 : inv = invO := by
                  rw [hinvDef, if_neg]
                  rw [hpl]
                  exact hne
                rw [hinv2] at hdec
                rw [if_neg hne, if_neg hne, hinv2]
                show invTotal invX + invTotal (decInv invO m.size) + 1 = _
                omega
            have hih := ih (simItem cs inv m player).newStacks
              (if player = Player.X then (simItem cs inv m player).newInventory else invX)
              (if player = Player.X then invO else (simItem cs inv m player).newInventory)
              (otherPlayer player) (ply + 1) a b mm (by omega) (by omega) (by omega) hmm
            refine ⟨hih.1, hih.2.2.1, ?_⟩
            obtain ⟨hklt, hlo, hwinO, hnotO⟩ := hih.2
            have hchildTot : keyTot (keyOf (otherPlayer player)
                (if player = Player.X then (simItem cs inv m player).newInventory else invX)
                (if player = Player.X then invO else (simItem cs inv m player).newInventory)
                (simItem cs inv m player).newStacks) =
                invTotal invX + invTotal invO - 1 := by
              rw [keyTot_keyOf]
              omega
            by_cases hOw : keyWinner g w (keyOf (otherPlayer player)
                (if player = Player.X then (simItem cs inv m player).newInventory else invX)
                (if player = Player.X then invO else (simItem cs inv m player).newInventory)
                (simItem cs inv m player).newStacks) = some Player.O
            · rw [hwinO hOw, hchildTot]
              have : (M - (invTotal invX + invTotal invO - 1)) = ply + 1 := by omega
              rw [this]
              push_cast
              omega
            · have := hnotO hOw
              rw [hchildTot] at this
              have heq : (M - (invTotal invX + invTotal invO - 1)) = ply + 1 := by omega
              rw [heq] at this
              push_cast at this ⊢
              omega
          have hordne : ordered ≠ [] := by
            rw [horderedDef]
            apply sortByCapDesc_ne_nil
            intro hnil
            rw [List.map_eq_nil_iff] at hnil
            have h2 : moves.isEmpty = true := by
              rw [hnil]
              rfl
            rw [h2] at hmoves
            exact Bool.noConfusion hmoves
          have hab := abLoop_phi g w M (999 - (ply : Int)) (by omega)
            (fun item a b mm => minimax n g w none item.newStacks
              (if player = Player.X then item.newInventory else invX)
              (if player = Player.X then invO else item.newInventory)
              (otherPlayer player) (ply + 1) a b mm)
            (decide (player = Player.O)) ordered
            (if player = Player.O then negInf else posInf) alpha beta memo
            hfchild hmemo (Or.inl (by by_cases h : player = Player.O <;> simp [h]))
          obtain ⟨habmemo, -, habval⟩ := hab
          have hvb := habval hordne
          have hphi : phi g w M (keyOf player invX invO cs)
              (abLoop (fun item a b mm => minimax n g w none item.newStacks
                (if player = Player.X then item.newInventory else invX)
                (if player = Player.X then invO else item.newInventory)
                (otherPlayer player) (ply + 1) a b mm)
                (decide (player = Player.O)) ordered
                (if player = Player.O then negInf else posInf)
                alpha beta memo).1 := by
            refine ⟨by omega, hvb.1, ?_, ?_⟩
            · intro hOwin
              rw [hkw] at hOwin
              exact absurd hOwin (by simp)
            · intro _
              rw [hplyEq]
              exact hvb.2
          exact ⟨memoOK_insert g w M _ _ _ habmemo hphi, hphi⟩

/-- The winner recorded in a memo key, expressed through the stacks the key was
built from. -/
theorem keyWinner_keyOf (g w : Nat) (p : Player) (iX iO : CircleInventory) (s : CellStacks) :
    keyWinner g w (keyOf p iX iO s) = (checkWinner (getTopOwnerBoard s) g w).map Prod.fst := by
  unfold keyWinner
  rw [keyBoard_keyOf]

/-- The root loop of the hard bot, with `O` to move: the running best score never
exceeds 999, a best score of exactly 999 certifies an immediately winning best
move, the result move comes from the initial best or the move list, and a
winning move anywhere in the list drives the final score to 999. -/
theorem rootLoop_O_win (g w M : Nat) (hM : M ≤ 999)
    (cellStacks : CellStacks) (invX invO : CircleInventory)
    (hT : invTotal invX + invTotal invO = M) :
    ∀ (l : List CircleMove) (bm : CircleMove) (bs : Int) (memo : Memo),
      (∀ m ∈ l, m ∈ getValidCircleMoves cellStacks invO) →
      memoOK g w M memo →
      bs ≤ 999 →
      (bs = 999 → oWinsAfter g w cellStacks bm) →
      ((rootLoop M g w none cellStacks invX invO Player.O l bm bs memo).1 = bm ∨
        (rootLoop M g w none cellStacks invX invO Player.O l bm bs memo).1 ∈ l) ∧
      (rootLoop M g w none cellStacks invX invO Player.O l bm bs memo).2.1 ≤ 999 ∧
      ((rootLoop M g w none cellStacks invX invO Player.O l bm bs memo).2.1 = 999 →
        oWinsAfter g w cellStacks
          (rootLoop M g w none cellStacks invX invO Player.O l bm bs memo).1) ∧
      ((bs = 999 ∨ ∃ m ∈ l, oWinsAfter g w cellStacks m) →
        (rootLoop M g w none cellStacks invX invO Player.O l bm bs memo).2.1 = 999) := by
  intro l
  induction l with
  | nil =>
    intro bm bs memo _ _ hbs hbm
    refine ⟨Or.inl rfl, hbs, hbm, ?_⟩
    rintro (h9 | ⟨m, hm, -⟩)
    · exact h9
    · exact absurd hm (by simp)
  | cons m rest ih =>
    intro bm bs memo hl hmemo hbs hbm
    have hleg : m ∈ getValidCircleMoves cellStacks invO := hl m (List.mem_cons_self m rest)
    have hmv := mem_getValidCircleMoves cellStacks invO m hleg
    have hdec := invTotal_decInv invO m.size hmv.1
    have hM1 : 1 ≤ M := by
      have := invTotal_pos_of_invForSize invO m.size hmv.1
      omega
    have hphi := minimax_phi g w M hM M (simStacks cellStacks m Player.O) invX
      (decInv invO m.size) Player.X 1 negInf posInf memo (by omega) (by omega)
      (by omega) hmemo
    set r := minimax M g w none (simStacks cellStacks m Player.O) invX
      (decInv invO m.size) Player.X 1 negInf posInf memo with hrdef
    obtain ⟨hrmemo, hklt, hrlo, hrwin, hrnot⟩ := hphi
    have hktEq : keyTot (keyOf Player.X invX (decInv invO m.size)
        (simStacks cellStacks m Player.O)) = invTotal invX + invTotal (decInv invO m.size) :=
      keyTot_keyOf Player.X invX (decInv invO m.size) (simStacks cellStacks m Player.O)
    have hscore_win : oWinsAfter g w cellStacks m → r.1 = 999 := by
      intro hw
      have hkw : keyWinner g w (keyOf Player.X invX (decInv invO m.size)
          (simStacks cellStacks m Player.O)) = some Player.O := by
        rw [keyWinner_keyOf]
        exact hw
      have hv := hrwin hkw
      rw [hktEq] at hv
      have h1 : (M - (invTotal invX + invTotal (decInv invO m.size)) : Nat) = 1 := by omega
      rw [h1] at hv
      push_cast at hv
      omega
    have hscore_not : ¬ oWinsAfter g w cellStacks m → r.1 ≤ 998 := by
      intro hw
      have hkw : keyWinner g w (keyOf Player.X invX (decInv invO m.size)
          (simStacks cellStacks m Player.O)) ≠ some Player.O := by
        rw [keyWinner_keyOf]
        exact hw
      have hv := hrnot hkw
      rw [hktEq] at hv
      have h1 : (M - (invTotal invX + invTotal (decInv invO m.size)) : Nat) = 1 := by omega
      rw [h1] at hv
      push_cast at hv
      omega
    have hr999 : r.1 ≤ 999 := by
      by_cases hw : oWinsAfter g w cellStacks m
      · have := hscore_win hw
        omega
      · have := hscore_not hw
        omega
    have hrwin999 : r.1 = 999 → oWinsAfter g w cellStacks m := by
      intro h9
      by_cases hw : oWinsAfter g w cellStacks m
      · exact hw
      · have := hscore_not hw
        omega
    have hl' : ∀ m' ∈ rest, m' ∈ getValidCircleMoves cellStacks invO := fun m' hm' =>
      hl m' (List.mem_cons_of_mem m hm')
    have hstep : rootLoop M g w none cellStacks invX invO Player.O (m :: rest) bm bs memo =
        if bs < r.1 then
          rootLoop M g w none cellStacks invX invO Player.O rest m r.1 r.2
        else
          rootLoop M g w none cellStacks invX invO Player.O rest bm bs r.2 := by
      rw [hrdef]
      rfl
    rw [hstep]
    by_cases hlt : bs < r.1
    · rw [if_pos hlt]
      obtain ⟨ihmem, ihle, ihwin, ihfin⟩ := ih m r.1 r.2 hl' hrmemo hr999 hrwin999
      refine ⟨?_, ihle, ihwin, ?_⟩
      · rcases ihmem with h | h
        · refine Or.inr ?_
          rw [h]
          exact List.mem_cons_self m rest
        · exact Or.inr (List.mem_cons_of_mem m h)
      · rintro (h9 | ⟨m', hm', hw'⟩)
        · exact absurd h9 (by omega)
        · rcases List.mem_cons.mp hm' with rfl | hm'
          · exact ihfin (Or.inl (hscore_win hw'))
          · exact ihfin (Or.inr ⟨m', hm', hw'⟩)
    · rw [if_neg hlt]
      obtain ⟨ihmem, ihle, ihwin, ihfin⟩ := ih bm bs r.2 hl' hrmemo hbs hbm
      refine ⟨?_, ihle, ihwin, ?_⟩
      · rcases ihmem with h | h
        · exact Or.inl h
        · exact Or.inr (List.mem_cons_of_mem m h)
      · rintro (h9 | ⟨m', hm', hw'⟩)
        · exact ihfin (Or.inl h9)
        · rcases List.mem_cons.mp hm' with rfl | hm'
          · have h9 : bs = 999 := by
              have := hscore_win hw'
              omega
            exact ihfin (Or.inl h9)
          · exact ihfin (Or.inr ⟨m', hm', hw'⟩)

/-- Unfolding of `computeBestCirclesMoveHard` when the mover has legal moves. -/
theorem computeBest_eq_cons (cellStacks : CellStacks) (invX invO : CircleInventory)
    (p : Player) (g w : Nat) (maxDepth : Option Nat) (h : CircleMove) (t : List CircleMove)
    (hrm : getValidCircleMoves cellStacks (if p = Player.X then invX else invO) = h :: t) :
    computeBestCirclesMoveHard cellStacks invX invO p g w maxDepth =
      some (rootLoop (invTotal invX + invTotal invO) g w maxDepth cellStacks invX invO p
        (h :: t) h negInf []).1 := by
  unfold computeBestCirclesMoveHard
  dsimp only
  rw [hrm]

/-- C2: with `O` to move and some legal move of `O` winning immediately on the
derived board, the hard bot (with no depth limit) returns a legal move that
wins immediately for `O` on this ply. -/
theorem computeBestCirclesMoveHard_immediate_win (g w : Nat) (cellStacks : CellStacks)
    (invX invO : CircleInventory) (hM : invTotal invX + invTotal invO ≤ 999)
    (m0 : CircleMove) (hm0 : m0 ∈ getValidCircleMoves cellStacks invO)
    (hm0win : oWinsAfter g w cellStacks m0) :
    ∃ m, computeBestCirclesMoveHard cellStacks invX invO Player.O g w none = some m ∧
      m ∈ getValidCircleMoves cellStacks invO ∧ oWinsAfter g w cellStacks m := by
  cases hrm : getValidCircleMoves cellStacks invO with
  | nil =>
    rw [hrm] at hm0
    exact absurd hm0 (by simp)
  | cons h t =>
    have hcomp := computeBest_eq_cons cellStacks invX invO Player.O g w none h t hrm
    have hroot := rootLoop_O_win g w (invTotal invX + invTotal invO) hM cellStacks invX invO
      rfl (h :: t) h negInf []
      (fun m' hm' => by
        rw [hrm]
        exact hm')
      (memoOK_nil g w (invTotal invX + invTotal invO))
      (by norm_num [negInf])
      (fun h9 => absurd h9 (by norm_num [negInf]))
    obtain ⟨hmem, -, hwin, hfin⟩ := hroot
    have h999 := hfin (Or.inr ⟨m0, hrm ▸ hm0, hm0win⟩)
    refine ⟨_, hcomp, ?_, hwin h999⟩
    rcases hmem with he | he
    · rw [he]
      exact List.mem_cons_self h t
    · exact he

/-- Witness for C2 on a one-cell board: `O` holds one small circle and placing
it wins at once; the hard bot returns that move. -/
theorem computeBestCirclesMoveHard_immediate_win_witness :
    ∃ m, computeBestCirclesMoveHard [[]] ⟨0, 0, 0⟩ ⟨1, 0, 0⟩ Player.O 1 1 none = some m ∧
      m ∈ getValidCircleMoves [[]] ⟨1, 0, 0⟩ ∧ oWinsAfter 1 1 [[]] m :=
  computeBestCirclesMoveHard_immediate_win 1 1 [[]] ⟨0, 0, 0⟩ ⟨1, 0, 0⟩ (by decide)
    ⟨0, 1⟩ (by decide) (by rfl)

/-! ## C8: root argmax -/

theorem getValidCircleMoves_parts (s : CellStacks) (inv : CircleInventory) :
    getValidCircleMoves s inv =
      movesForSize s inv 1 ++ (movesForSize s inv 2 ++ (movesForSize s inv 3 ++ [])) := rfl

theorem mem_movesForSize (s : CellStacks) (inv : CircleInventory) (sz : Nat)
    (m : CircleMove) (h : m ∈ movesForSize s inv sz) : m.size = sz := by
  unfold movesForSize at h
  by_cases hp : invForSize inv sz ≤ 0
  · rw [if_pos hp] at h
    exact absurd h (by simp)
  · rw [if_neg hp] at h
    obtain ⟨i, -, hfi⟩ := List.mem_filterMap.mp h
    by_cases hv : isValidCirclePlacement s i sz = true
    · rw [if_pos hv] at hfi
      obtain rfl : (⟨i, sz⟩ : CircleMove) = m := by simpa using hfi
      rfl
    · rw [if_neg hv] at hfi
      exact absurd hfi (by simp)

theorem pairwise_movesForSize (s : CellStacks) (inv : CircleInventory) (sz : Nat) :
    List.Pairwise (fun a b : CircleMove => a.cellIndex < b.cellIndex)
      (movesForSize s inv sz) := by
  unfold movesForSize
  by_cases hp : invForSize inv sz ≤ 0
  · rw [if_pos hp]
    exact List.Pairwise.nil
  · rw [if_neg hp]
    refine List.Pairwise.filterMap _ ?_ (List.pairwise_lt_range s.length)
    intro a a' hlt b hb b' hb'
    by_cases hv : isValidCirclePlacement s a sz = true
    · rw [if_pos hv] at hb
      obtain rfl : (⟨a, sz⟩ : CircleMove) = b := by simpa using hb
      by_cases hv' : isValidCirclePlacement s a' sz = true
      · rw [if_pos hv'] at hb'
        obtain rfl : (⟨a', sz⟩ : CircleMove) = b' := by simpa using hb'
        exact hlt
      · rw [if_neg hv'] at hb'
        exact absurd hb' (by simp)
    · rw [if_neg hv] at hb
      exact absurd hb (by simp)

/-- `getValidCircleMoves` lists moves by ascending size and, within one size,
by ascending cell index. -/
theorem getValidCircleMoves_pairwise (s : CellStacks) (inv : CircleInventory) :
    List.Pairwise
      (fun a b : CircleMove => a.size < b.size ∨ (a.size = b.size ∧ a.cellIndex < b.cellIndex))
      (getValidCircleMoves s inv) := by
  rw [getValidCircleMoves_parts]
  have hone : ∀ sz, List.Pairwise
      (fun a b : CircleMove => a.size < b.size ∨ (a.size = b.size ∧ a.cellIndex < b.cellIndex))
      (movesForSize s inv sz) := by
    intro sz
    refine List.Pairwise.imp_of_mem ?_ (pairwise_movesForSize s inv sz)
    intro a b ha hb hlt
    exact Or.inr ⟨(mem_movesForSize s inv sz a ha).trans
      (mem_movesForSize s inv sz b hb).symm, hlt⟩
  rw [List.pairwise_append]
  refine ⟨hone 1, ?_, ?_⟩
  · rw [List.pairwise_append]
    refine ⟨hone 2, ?_, ?_⟩
    · rw [List.pairwise_append]
      refine ⟨hone 3, List.Pairwise.nil, ?_⟩
      intro a ha b hb
      exact absurd hb (by simp)
    · intro a ha b hb
      rcases List.mem_append.mp hb with hb | hb
      · refine Or.inl ?_
        rw [mem_movesForSize s inv 2 a ha, mem_movesForSize s inv 3 b hb]
        omega
      · exact absurd hb (by simp)
  · intro a ha b hb
    rcases List.mem_append.mp hb with hb | hb
    · refine Or.inl ?_
      rw [mem_movesForSize s inv 1 a ha, mem_movesForSize s inv 2 b hb]
      omega
    rcases List.mem_append.mp hb with hb | hb
    · refine Or.inl ?_
      rw [mem_movesForSize s inv 1 a ha, mem_movesForSize s inv 3 b hb]
      omega
    · exact absurd hb (by simp)

/-- `pickFirst` keeps the initial pair when no score beats it, and otherwise
lands on the first strict argmax of the score list. -/
theorem pickFirst_spec :
    ∀ (ms : List CircleMove) (ss : List Int) (bm : CircleMove) (bs : Int),
      ms.length = ss.length →
      ((pickFirst ms ss bm bs).1 = bm ∧ (pickFirst ms ss bm bs).2 = bs ∧
        ∀ s ∈ ss, s ≤ bs) ∨
      (∃ i, i < ms.length ∧
        (∀ d, ms.getD i d = (pickFirst ms ss bm bs).1) ∧
        (∀ e, ss.getD i e = (pickFirst ms ss bm bs).2) ∧
        bs < (pickFirst ms ss bm bs).2 ∧
        (∀ j e, j < i → ss.getD j e < (pickFirst ms ss bm bs).2) ∧
        (∀ j e, j < ss.length → ss.getD j e ≤ (pickFirst ms ss bm bs).2)) := by
  intro ms
  induction ms with
  | nil =>
    intro ss bm bs hlen
    obtain rfl : ss = [] := by
      have h0 : ss.length = 0 := by simpa using hlen.symm
      exact List.length_eq_zero.mp h0
    exact Or.inl ⟨rfl, rfl, by simp⟩
  | cons m ms ih =>
    intro ss bm bs hlen
    cases ss with
    | nil => exact absurd hlen (by simp)
    | cons s ss =>
      have hlen' : ms.length = ss.length := by simpa using hlen
      by_cases hlt : bs < s
      · have hred : pickFirst (m :: ms) (s :: ss) bm bs = pickFirst ms ss m s := by
          show (if bs < s then pickFirst ms ss m s else pickFirst ms ss bm bs) = _
          rw [if_pos hlt]
        rw [hred]
        rcases ih ss m s hlen' with ⟨h1, h2, h3⟩ | ⟨i, hi, hd, he, hbs, hjlt, hjle⟩
        · refine Or.inr ⟨0, by simp, ?_, ?_, ?_, ?_, ?_⟩
          · intro d
            rw [List.getD_cons_zero, h1]
          · intro e
            rw [List.getD_cons_zero, h2]
          · rw [h2]
            exact hlt
          · intro j e hj
            exact absurd hj (by omega)
          · intro j e hj
            cases j with
            | zero =>
              rw [List.getD_cons_zero, h2]
            | succ j =>
              rw [List.getD_cons_succ, h2]
              have hj' : j < ss.length := by simpa using hj
              have hmem : ss.getD j e ∈ ss := by
                rw [List.getD_eq_getElem ss e hj']
                exact List.getElem_mem hj'
              exact h3 _ hmem
        · refine Or.inr ⟨i + 1, by simpa using hi, ?_, ?_, ?_, ?_, ?_⟩
          · intro d
            rw [List.getD_cons_succ]
            exact hd d
          · intro e
            rw [List.getD_cons_succ]
            exact he e
          · exact lt_trans hlt hbs
          · intro j e hj
            cases j with
            | zero =>
              rw [List.getD_cons_zero]
              exact hbs
            | succ j =>
              rw [List.getD_cons_succ]
              exact hjlt j e (by omega)
          · intro j e hj
            cases j with
            | zero =>
              rw [List.getD_cons_zero]
              exact le_of_lt hbs
            | succ j =>
              rw [List.getD_cons_succ]
              exact hjle j e (by simpa using hj)
      · have hred : pickFirst (m :: ms) (s :: ss) bm bs = pickFirst ms ss bm bs := by
          show (if bs < s then pickFirst ms ss m s else pickFirst ms ss bm bs) = _
          rw [if_neg hlt]
        rw [hred]
        rcases ih ss bm bs hlen' with ⟨h1, h2, h3⟩ | ⟨i, hi, hd, he, hbs, hjlt, hjle⟩
        · refine Or.inl ⟨h1, h2, ?_⟩
          intro x hx
          rcases List.mem_cons.mp hx with rfl | hx
          · omega
          · exact h3 x hx
        · refine Or.inr ⟨i + 1, by simpa using hi, ?_, ?_, ?_, ?_, ?_⟩
          · intro d
            rw [List.getD_cons_succ]
            exact hd d
          · intro e
            rw [List.getD_cons_succ]
            exact he e
          · exact hbs
          · intro j e hj
            cases j with
            | zero =>
              rw [List.getD_cons_zero]
              omega
            | succ j =>
              rw [List.getD_cons_succ]
              exact hjlt j e (by omega)
          · intro j e hj
            cases j with
            | zero =>
              rw [List.getD_cons_zero]
              omega
            | succ j =>
              rw [List.getD_cons_succ]
              exact hjle j e (by simpa using hj)

theorem rootScores_length (fuel g w : Nat) (md : Option Nat) (cs : CellStacks)
    (iX iO : CircleInventory) (p : Player) :
    ∀ (l : List CircleMove) (memo : Memo),
      (rootScores fuel g w md cs iX iO p l memo).length = l.length := by
  intro l
  induction l with
  | nil =>
    intro memo
    rfl
  | cons m rest ih =>
    intro memo
    show (_ :: rootScores fuel g w md cs iX iO p rest _).length = (m :: rest).length
    rw [List.length_cons, List.length_cons, ih]

theorem rootScores_ge (g w M : Nat) (hM : M ≤ 999) (cs : CellStacks)
    (iX iO : CircleInventory) (hT : invTotal iX + invTotal iO = M) (p : Player) :
    ∀ (l : List CircleMove) (memo : Memo),
      (∀ m ∈ l, m ∈ getValidCircleMoves cs (if p = Player.X then iX else iO)) →
      memoOK g w M memo →
      ∀ s ∈ rootScores M g w none cs iX iO p l memo, -999 ≤ s := by
  intro l
  induction l with
  | nil =>
    intro memo _ _ s hs
    have hnil : rootScores M g w none cs iX iO p [] memo = [] := rfl
    rw [hnil] at hs
    exact absurd hs (by simp)
  | cons m rest ih =>
    intro memo hl hmemo
    have hleg := hl m (List.mem_cons_self m rest)
    have hmv := mem_getValidCircleMoves cs (if p = Player.X then iX else iO) m hleg
    have hl' : ∀ m' ∈ rest, m' ∈ getValidCircleMoves cs (if p = Player.X then iX else iO) :=
      fun m' hm' => hl m' (List.mem_cons_of_mem m hm')
    cases hp : p with
    | X =>
      subst hp
      have hpos : 0 < invForSize iX m.size := hmv.1
      have hdec := invTotal_decInv iX m.size hpos
      have hphi := minimax_phi g w M hM M (simStacks cs m Player.X) (decInv iX m.size) iO
        Player.O 1 negInf posInf memo (by omega) (by omega) (by omega) hmemo
      have hstep : rootScores M g w none cs iX iO Player.X (m :: rest) memo =
          (minimax M g w none (simStacks cs m Player.X) (decInv iX m.size) iO
            Player.O 1 negInf posInf memo).1 ::
          rootScores M g w none cs iX iO Player.X rest
            (minimax M g w none (simStacks cs m Player.X) (decInv iX m.size) iO
              Player.O 1 negInf posInf memo).2 := rfl
      rw [hstep]
      intro s hs
      rcases List.mem_cons.mp hs with rfl | hs
      · exact hphi.2.2.1
      · exact ih _ hl' hphi.1 s hs
    | O =>
      subst hp
      have hpos : 0 < invForSize iO m.size := hmv.1
      have hdec := invTotal_decInv iO m.size hpos
      have hphi := minimax_phi g w M hM M (simStacks cs m Player.O) iX (decInv iO m.size)
        Player.X 1 negInf posInf memo (by omega) (by omega) (by omega) hmemo
      have hstep : rootScores M g w none cs iX iO Player.O (m :: rest) memo =
          (minimax M g w none (simStacks cs m Player.O) iX (decInv iO m.size)
            Player.X 1 negInf posInf memo).1 ::
          rootScores M g w none cs iX iO Player.O rest
            (minimax M g w none (simStacks cs m Player.O) iX (decInv iO m.size)
              Player.X 1 negInf posInf memo).2 := rfl
      rw [hstep]
      intro s hs
      rcases List.mem_cons.mp hs with rfl | hs
      · exact hphi.2.2.1
      · exact ih _ hl' hphi.1 s hs

theorem rootLoop_eq_pickFirst (fuel g w : Nat) (md : Option Nat) (cs : CellStacks)
    (iX iO : CircleInventory) (p : Player) :
    ∀ (l : List CircleMove) (bm : CircleMove) (bs : Int) (memo : Memo),
      (rootLoop fuel g w md cs iX iO p l bm bs memo).1 =
        (pickFirst l (rootScores fuel g w md cs iX iO p l memo) bm bs).1 := by
  intro l
  induction l with
  | nil =>
    intro bm bs memo
    rfl
  | cons m rest ih =>
    intro bm bs memo
    have key : ∀ (r : Int × Memo),
        (if bs < r.1 then rootLoop fuel g w md cs iX iO p rest m r.1 r.2
         else rootLoop fuel g w md cs iX iO p rest bm bs r.2).1 =
        (if bs < r.1 then
          pickFirst rest (rootScores fuel g w md cs iX iO p rest r.2) m r.1
         else
          pickFirst rest (rootScores fuel g w md cs iX iO p rest r.2) bm bs).1 := by
      intro r
      by_cases hlt : bs < r.1
      · rw [if_pos hlt, if_pos hlt]
        exact ih m r.1 r.2
      · rw [if_neg hlt, if_neg hlt]
        exact ih bm bs r.2
    exact key _

theorem computeBest_none_iff (cs : CellStacks) (iX iO : CircleInventory) (p : Player)
    (g w : Nat) (md : Option Nat) :
    computeBestCirclesMoveHard cs iX iO p g w md = none ↔
      getValidCircleMoves cs (if p = Player.X then iX else iO) = [] := by
  cases hrm : getValidCircleMoves cs (if p = Player.X then iX else iO) with
  | nil =>
    constructor
    · intro _
      rfl
    · intro _
      unfold computeBestCirclesMoveHard
      dsimp only
      rw [hrm]
  | cons h t =>
    rw [computeBest_eq_cons cs iX iO p g w md h t hrm]
    simp

/-- C8 (amended): the hard bot returns `null` exactly when the side to move has
no legal move; the legal moves are enumerated by size 1, 2, 3 and then by
ascending cell index; and the returned move is the first strict argmax of the
scores the memoised alpha-beta search itself assigns to the root moves (which
need not be the true minimax scores, see the counterexample). -/
theorem computeBestCirclesMoveHard_root_spec (g w : Nat) (cellStacks : CellStacks)
    (invX invO : CircleInventory) (p : Player)
    (hM : invTotal invX + invTotal invO ≤ 999) :
    (computeBestCirclesMoveHard cellStacks invX invO p g w none = none ↔
      getValidCircleMoves cellStacks (if p = Player.X then invX else invO) = []) ∧
    List.Pairwise
      (fun a b : CircleMove =>
        a.size < b.size ∨ (a.size = b.size ∧ a.cellIndex < b.cellIndex))
      (getValidCircleMoves cellStacks (if p = Player.X then invX else invO)) ∧
    (∀ m, computeBestCirclesMoveHard cellStacks invX invO p g w none = some m →
      ∃ i, i < (getValidCircleMoves cellStacks (if p = Player.X then invX else invO)).length ∧
        (getValidCircleMoves cellStacks (if p = Player.X then invX else invO)).getD i m = m ∧
        (∀ j, j < (getValidCircleMoves cellStacks
            (if p = Player.X then invX else invO)).length →
          (rootScores (invTotal invX + invTotal invO) g w none cellStacks invX invO p
              (getValidCircleMoves cellStacks (if p = Player.X then invX else invO))
              []).getD j 0 ≤
            (rootScores (invTotal invX + invTotal invO) g w none cellStacks invX invO p
              (getValidCircleMoves cellStacks (if p = Player.X then invX else invO))
              []).getD i 0) ∧
        (∀ j, j < i →
          (rootScores (invTotal invX + invTotal invO) g w none cellStacks invX invO p
              (getValidCircleMoves cellStacks (if p = Player.X then invX else invO))
              []).getD j 0 <
            (rootScores (invTotal invX + invTotal invO) g w none cellStacks invX invO p
              (getValidCircleMoves cellStacks (if p = Player.X then invX else invO))
              []).getD i 0)) := by
  refine ⟨computeBest_none_iff cellStacks invX invO p g w none,
    getValidCircleMoves_pairwise _ _, ?_⟩
  intro m hm
  cases hrm : getValidCircleMoves cellStacks (if p = Player.X then invX else invO) with
  | nil =>
    have hnone := (computeBest_none_iff cellStacks invX invO p g w none).mpr hrm
    rw [hnone] at hm
    exact absurd hm (by simp)
  | cons m0 rest =>
    have hcomp := computeBest_eq_cons cellStacks invX invO p g w none m0 rest hrm
    rw [hcomp] at hm
    have hmr : (rootLoop (invTotal invX + invTotal invO) g w none cellStacks invX invO p
        (m0 :: rest) m0 negInf []).1 = m := Option.some.inj hm
    set scores := rootScores (invTotal invX + invTotal invO) g w none cellStacks invX invO p
      (m0 :: rest) [] with hscoresDef
    have hlen : (m0 :: rest).length = scores.length :=
      (rootScores_length (invTotal invX + invTotal invO) g w none cellStacks invX invO p
        (m0 :: rest) []).symm
    have hge : ∀ s ∈ scores, -999 ≤ s :=
      rootScores_ge g w (invTotal invX + invTotal invO) hM cellStacks invX invO rfl p
        (m0 :: rest) []
        (fun m' hm' => by
          rw [hrm]
          exact hm')
        (memoOK_nil g w (invTotal invX + invTotal invO))
  -- the root loop picks exactly what pickFirst picks on these scores
    have heq := rootLoop_eq_pickFirst (invTotal invX + invTotal invO) g w none cellStacks
      invX invO p (m0 :: rest) m0 negInf []
    rw [← hscoresDef] at heq
    rcases pickFirst_spec (m0 :: rest) scores m0 negInf hlen
      with ⟨h1, h2, h3⟩ | ⟨i, hi, hd, he, hbs, hjlt, hjle⟩
    · exfalso
      cases hsc : scores with
      | nil =>
        rw [hsc] at hlen
        simp at hlen
      | cons sc ss =>
        have hs1 : sc ∈ scores := by
          rw [hsc]
          exact List.mem_cons_self sc ss
        have hge1 := hge sc hs1
        have hle1 := h3 sc hs1
        rw [negInf] at hle1
        omega
    · refine ⟨i, hi, ?_, ?_, ?_⟩
      · rw [hd m, ← heq]
        exact hmr
      · intro j hj
        rw [he 0]
        have hj' : j < scores.length := by omega
        exact hjle j 0 hj'
      · intro j hj
        rw [he 0]
        exact hjlt j 0 hj

/-- Witness for C8's amended theorem on a one-cell board where `O` holds one
small circle. -/
theorem computeBestCirclesMoveHard_root_spec_witness :
    (computeBestCirclesMoveHard [[]] ⟨0, 0, 0⟩ ⟨1, 0, 0⟩ Player.O 1 1 none = none ↔
      getValidCircleMoves [[]]
        (if Player.O = Player.X then ⟨0, 0, 0⟩ else ⟨1, 0, 0⟩) = []) ∧
    List.Pairwise
      (fun a b : CircleMove =>
        a.size < b.size ∨ (a.size = b.size ∧ a.cellIndex < b.cellIndex))
      (getValidCircleMoves [[]]
        (if Player.O = Player.X then ⟨0, 0, 0⟩ else ⟨1, 0, 0⟩)) ∧
    (∀ m, computeBestCirclesMoveHard [[]] ⟨0, 0, 0⟩ ⟨1, 0, 0⟩ Player.O 1 1 none = some m →
      ∃ i, i < (getValidCircleMoves [[]]
          (if Player.O = Player.X then ⟨0, 0, 0⟩ else ⟨1, 0, 0⟩)).length ∧
        (getValidCircleMoves [[]]
          (if Player.O = Player.X then ⟨0, 0, 0⟩ else ⟨1, 0, 0⟩)).getD i m = m ∧
        (∀ j, j < (getValidCircleMoves [[]]
            (if Player.O = Player.X then ⟨0, 0, 0⟩ else ⟨1, 0, 0⟩)).length →
          (rootScores (invTotal ⟨0, 0, 0⟩ + invTotal ⟨1, 0, 0⟩) 1 1 none [[]] ⟨0, 0, 0⟩
              ⟨1, 0, 0⟩ Player.O
              (getValidCircleMoves [[]]
                (if Player.O = Player.X then ⟨0, 0, 0⟩ else ⟨1, 0, 0⟩)) []).getD j 0 ≤
            (rootScores (invTotal ⟨0, 0, 0⟩ + invTotal ⟨1, 0, 0⟩) 1 1 none [[]] ⟨0, 0, 0⟩
              ⟨1, 0, 0⟩ Player.O
              (getValidCircleMoves [[]]
                (if Player.O = Player.X then ⟨0, 0, 0⟩ else ⟨1, 0, 0⟩)) []).getD i 0) ∧
        (∀ j, j < i →
          (rootScores (invTotal ⟨0, 0, 0⟩ + invTotal ⟨1, 0, 0⟩) 1 1 none [[]] ⟨0, 0, 0⟩
              ⟨1, 0, 0⟩ Player.O
              (getValidCircleMoves [[]]
                (if Player.O = Player.X then ⟨0, 0, 0⟩ else ⟨1, 0, 0⟩)) []).getD j 0 <
            (rootScores (invTotal ⟨0, 0, 0⟩ + invTotal ⟨1, 0, 0⟩) 1 1 none [[]] ⟨0, 0, 0⟩
              ⟨1, 0, 0⟩ Player.O
              (getValidCircleMoves [[]]
                (if Player.O = Player.X then ⟨0, 0, 0⟩ else ⟨1, 0, 0⟩)) []).getD i 0)) :=
  computeBestCirclesMoveHard_root_spec 1 1 [[]] ⟨0, 0, 0⟩ ⟨1, 0, 0⟩ Player.O (by decide)

set_option maxRecDepth 100000 in
set_option maxHeartbeats 10000000 in
theorem c8_impl_eval :
    computeBestCirclesMoveHard c8Stacks c8InvX c8InvO Player.O 3 3 none =
      some ⟨4, 2⟩ := by decide

theorem c8_moves_eval :
    getValidCircleMoves c8Stacks c8InvO =
      [⟨0, 1⟩, ⟨1, 1⟩, ⟨4, 1⟩, ⟨5, 1⟩, ⟨0, 2⟩, ⟨1, 2⟩, ⟨4, 2⟩, ⟨5, 2⟩] := by decide

set_option maxRecDepth 100000 in
set_option maxHeartbeats 10000000 in
theorem c8score01 :
    pureMinimax (invTotal c8InvX + invTotal c8InvO) 3 3
      (simStacks c8Stacks ⟨0, 1⟩ Player.O) c8InvX (decInv c8InvO 1) Player.X 1 = -996 := by
  decide

set_option maxRecDepth 100000 in
set_option maxHeartbeats 10000000 in
theorem c8score11 :
    pureMinimax (invTotal c8InvX + invTotal c8InvO) 3 3
      (simStacks c8Stacks ⟨1, 1⟩ Player.O) c8InvX (decInv c8InvO 1) Player.X 1 = -996 := by
  decide

set_option maxRecDepth 100000 in
set_option maxHeartbeats 10000000 in
theorem c8score41 :
    pureMinimax (invTotal c8InvX + invTotal c8InvO) 3 3
      (simStacks c8Stacks ⟨4, 1⟩ Player.O) c8InvX (decInv c8InvO 1) Player.X 1 = -996 := by
  decide

set_option maxRecDepth 100000 in
set_option maxHeartbeats 10000000 in
theorem c8score51 :
    pureMinimax (invTotal c8InvX + invTotal c8InvO) 3 3
      (simStacks c8Stacks ⟨5, 1⟩ Player.O) c8InvX (decInv c8InvO 1) Player.X 1 = -996 := by
  decide

set_option maxRecDepth 100000 in
set_option maxHeartbeats 10000000 in
theorem c8score02 :
    pureMinimax (invTotal c8InvX + invTotal c8InvO) 3 3
      (simStacks c8Stacks ⟨0, 2⟩ Player.O) c8InvX (decInv c8InvO 2) Player.X 1 = -996 := by
  decide

set_option maxRecDepth 100000 in
set_option maxHeartbeats 10000000 in
theorem c8score12 :
    pureMinimax (invTotal c8InvX + invTotal c8InvO) 3 3
      (simStacks c8Stacks ⟨1, 2⟩ Player.O) c8InvX (decInv c8InvO 2) Player.X 1 = -996 := by
  decide

set_option maxRecDepth 100000 in
set_option maxHeartbeats 10000000 in
theorem c8score42 :
    pureMinimax (invTotal c8InvX + invTotal c8InvO) 3 3
      (simStacks c8Stacks ⟨4, 2⟩ Player.O) c8InvX (decInv c8InvO 2) Player.X 1 = -996 := by
  decide

set_option maxRecDepth 100000 in
set_option maxHeartbeats 10000000 in
theorem c8score52 :
    pureMinimax (invTotal c8InvX + invTotal c8InvO) 3 3
      (simStacks c8Stacks ⟨5, 2⟩ Player.O) c8InvX (decInv c8InvO 2) Player.X 1 = -996 := by
  decide

theorem c8_claim_eval :
    claimRootMove c8Stacks c8InvX c8InvO Player.O 3 3 = some ⟨0, 1⟩ := by
  show (match getValidCircleMoves c8Stacks c8InvO with
    | [] => none
    | m0 :: rest =>
      some ((rest.foldl
        (fun best m =>
          if best.2 < pureMinimax (invTotal c8InvX + invTotal c8InvO) 3 3
              (simStacks c8Stacks m Player.O) c8InvX (decInv c8InvO m.size) Player.X 1 then
            (m, pureMinimax (invTotal c8InvX + invTotal c8InvO) 3 3
              (simStacks c8Stacks m Player.O) c8InvX (decInv c8InvO m.size) Player.X 1)
          else best)
        (m0, pureMinimax (invTotal c8InvX + invTotal c8InvO) 3 3
          (simStacks c8Stacks m0 Player.O) c8InvX (decInv c8InvO m0.size) Player.X 1)).1))
    = some ⟨0, 1⟩
  rw [c8_moves_eval]
  dsimp only
  rw [List.foldl_cons]
  dsimp only
  rw [List.foldl_cons]
  dsimp only
  rw [List.foldl_cons]
  dsimp only
  rw [List.foldl_cons]
  dsimp only
  rw [List.foldl_cons]
  dsimp only
  rw [List.foldl_cons]
  dsimp only
  rw [List.foldl_cons]
  dsimp only
  rw [List.foldl_nil]
  rw [c8score01, c8score11, c8score41, c8score51, c8score02, c8score12, c8score42,
    c8score52]
  norm_num

/-- C8 counterexample: on this position every root move of `O` has the same
pure minimax score, so the claim's first-move tie-break demands the first legal
move (cell 0, size 1); the implementation returns (cell 4, size 2) instead,
because its memo reuses alpha-beta-pruned bounds across root subtrees. -/
theorem computeBestCirclesMoveHard_root_argmax_cex :
    computeBestCirclesMoveHard c8Stacks c8InvX c8InvO Player.O 3 3 none =
      some ⟨4, 2⟩ ∧
    claimRootMove c8Stacks c8InvX c8InvO Player.O 3 3 = some ⟨0, 1⟩ ∧
    (⟨4, 2⟩ : CircleMove) ≠ ⟨0, 1⟩ :=
  ⟨c8_impl_eval, c8_claim_eval, by decide⟩

end TTT
